import Mathlib

/-!
# Verification of relascope's aggregating scanner and reconciliation engine

A shallow embedding of `relascope/aggregating_scanner.py` and
`relascope/sqlalchemy.py`.

Filesystem entries are modelled by `FNode` (one constructor per entry
classification used by the source: `is_file` / `is_dir` / `is_symlink` /
special).  A directory's contents are `Option (List (String × FNode))`:
`none` models `os.scandir` raising (unreadable or vanished directory),
`some es` is the listing in scandir order.  Stat results are exact
integers (`int(st_atime)` etc., `st_blocks`, `st_size`, `st_nlink`).

`time.time()` is modelled by an explicit integer clock threaded through
the functions; every call of `set_last_updated` consumes the current
clock value and advances it.

The SQLAlchemy session is modelled by `Store`, a list of `Directory`
records keyed by `path`; `merge` is an upsert, the bulk delete of
`delete_tree` filters by `path == top OR path LIKE top + '/%'` with
SQL `LIKE` semantics (`%` and `_` in the pattern are wildcards, exactly
as in the unescaped pattern the source builds).
-/

namespace Relascope

/-- The stat fields `add_dir_entry` reads (`follow_symlinks=False`). -/
structure Stat where
  atime : Int
  ctime : Int
  mtime : Int
  size : Nat
  blocks : Nat
  nlink : Nat
deriving DecidableEq, Repr

/-- One filesystem entry, pre-classified the way `os.DirEntry` answers
`is_file` / `is_dir` / `is_symlink` (each with `follow_symlinks=False`);
anything else is "special".  For a directory, `contents` is the listing
that `os.scandir` would produce on its path (`none` = scandir raises). -/
inductive FNode where
  | file (st : Stat)
  | dir (st : Stat) (contents : Option (List (String × FNode)))
  | symlink (st : Stat)
  | special (st : Stat)

/-- The stat record of an entry. -/
def FNode.stat : FNode → Stat
  | .file st => st
  | .dir st _ => st
  | .symlink st => st
  | .special st => st

/-- What `os.scandir` on this node's own path yields: a listing for a
readable directory, an exception (`none`) otherwise. -/
def FNode.listing : FNode → Option (List (String × FNode))
  | .dir _ contents => contents
  | _ => none

/-- Python's `round(n / d)`: the quotient rounded half-to-even
(the source divides `st_blocks` and `st_size` by `st_nlink` this way). -/
def pyRound (n d : Nat) : Nat :=
  if d = 0 then 0
  else
    let q := n / d
    let r := n % d
    if 2 * r < d then q
    else if d < 2 * r then q + 1
    else if q % 2 = 0 then q else q + 1

/-- The `Directory` entity of `aggregating_scanner.py`: location fields
plus the attributes of `MODEL` with `timestamp` or `count` semantics. -/
structure Directory where
  path : String
  parent : Option String
  depth : Nat
  max_depth : Nat
  scan_started : Int
  scan_finished : Int
  last_updated : Int
  max_atime : Int
  max_ctime : Int
  max_mtime : Int
  num_blocks : Nat
  num_bytes : Nat
  num_files : Nat
  num_dirs : Nat
  num_symlinks : Nat
  num_multi_links : Nat
  num_specials : Nat
  num_exceptions : Nat
deriving DecidableEq, Repr

/-- `len(PurePath(path).parents)`: the number of path components above
the path (empty components produced by repeated `/` do not count). -/
def pathDepth (p : String) : Nat :=
  ((p.splitOn "/").filter (fun s => s ≠ "")).length

/-- `Directory.clear`: reset every attribute of `CLEAR` — the `timestamp`
attributes to `-1` and the `count` attributes to `0`.  `depth` and
`max_depth` have semantics `depth` whose `DEFAULT_MAP` entry is `None`,
so they are *not* in `CLEAR` and are left untouched. -/
def Directory.clear (d : Directory) : Directory :=
  { d with
    scan_started := -1, scan_finished := -1, last_updated := -1,
    max_atime := -1, max_ctime := -1, max_mtime := -1,
    num_blocks := 0, num_bytes := 0, num_files := 0, num_dirs := 0,
    num_symlinks := 0, num_multi_links := 0, num_specials := 0,
    num_exceptions := 0 }

/-- `Directory.__init__(path, parent=None, depth=None)`: store location,
compute `depth` from the path when not supplied, set `max_depth` to
`depth`, then `clear()`. -/
def Directory.init (path : String) (parent : Option String)
    (depth? : Option Nat) : Directory :=
  let depth := depth?.getD (pathDepth path)
  Directory.clear
    { path := path, parent := parent, depth := depth, max_depth := depth,
      scan_started := 0, scan_finished := 0, last_updated := 0,
      max_atime := 0, max_ctime := 0, max_mtime := 0,
      num_blocks := 0, num_bytes := 0, num_files := 0, num_dirs := 0,
      num_symlinks := 0, num_multi_links := 0, num_specials := 0,
      num_exceptions := 0 }

/-- `Directory.add_dir_entry` in the case where `dir_entry.stat()`
succeeds: fold the max times, then dispatch on the entry classification
exactly as the `if/elif` chain does.  (The stat-failure branch of the
source is modelled separately by `addDirEntryE` below, because it does
not return normally.) -/
def addDirEntry (d : Directory) (fn : FNode) : Directory :=
  let stat := fn.stat
  let d :=
    { d with
      max_atime := max d.max_atime stat.atime,
      max_ctime := max d.max_ctime stat.ctime,
      max_mtime := max d.max_mtime stat.mtime }
  match fn with
  | .file _ =>
      let d :=
        { d with
          num_blocks := d.num_blocks + pyRound stat.blocks stat.nlink,
          num_bytes := d.num_bytes + pyRound stat.size stat.nlink,
          num_files := d.num_files + 1 }
      if stat.nlink ≠ 1 then
        { d with num_multi_links := d.num_multi_links + 1 }
      else d
  | .dir _ _ =>
      { d with
        num_blocks := d.num_blocks + stat.blocks,
        num_dirs := d.num_dirs + 1 }
  | .symlink _ => { d with num_symlinks := d.num_symlinks + 1 }
  | .special _ => { d with num_specials := d.num_specials + 1 }

/-- `Directory.add_child_directory`: max for `max_depth` and the three
max times, sums for the eight counters. -/
def addChildDirectory (d c : Directory) : Directory :=
  { d with
    max_depth := max d.max_depth c.max_depth,
    max_atime := max d.max_atime c.max_atime,
    max_ctime := max d.max_ctime c.max_ctime,
    max_mtime := max d.max_mtime c.max_mtime,
    num_blocks := d.num_blocks + c.num_blocks,
    num_bytes := d.num_bytes + c.num_bytes,
    num_files := d.num_files + c.num_files,
    num_dirs := d.num_dirs + c.num_dirs,
    num_symlinks := d.num_symlinks + c.num_symlinks,
    num_specials := d.num_specials + c.num_specials,
    num_multi_links := d.num_multi_links + c.num_multi_links,
    num_exceptions := d.num_exceptions + c.num_exceptions }

/-- `Directory.scan` on a path where `os.scandir` raises (unreadable
directory, or a path that is not a directory at all): the generator's
`clear()` runs, the exception is caught and counted, no children are
yielded, and the node is finished and emitted. -/
def scanRaise (path : String) (parent : Option String) (depth : Nat)
    (clock : Int) : List Directory × Directory × Int :=
  let d0 := Directory.init path parent (some depth)
  let d1 := { d0 with scan_started := clock, last_updated := clock }
  let d2 := d1.clear
  let d3 := { d2 with num_exceptions := d2.num_exceptions + 1 }
  let d4 := { d3 with scan_finished := clock + 1, last_updated := clock + 1 }
  ([d4], d4, clock + 2)

/-- The prologue of `Directory.scan` on a fresh
`Directory(path, parent, depth)`: `clear()`, record
`scan_started = set_last_updated()`, and then — because the *first*
resumption of the `generate_local_contents` generator begins with
`self.clear()` — clear again, wiping `scan_started` and `last_updated`
back to `-1`. -/
def scanStart (path : String) (parent : Option String) (depth : Nat)
    (clock : Int) : Directory :=
  let d0 := Directory.init path parent (some depth)
  let d1 := { d0 with scan_started := clock, last_updated := clock }
  d1.clear

/-- The epilogue of `Directory.scan`:
`scan_finished = set_last_updated()`, then yield `self` last. -/
def scanFinish (r : List Directory × Directory × Int) :
    List Directory × Directory × Int :=
  let d4 := { r.2.1 with scan_finished := r.2.2, last_updated := r.2.2 }
  (r.1 ++ [d4], d4, r.2.2 + 1)

mutual

/-- `Directory.scan` of the directory behind a scandir entry:
`os.scandir` on its path yields its contents when it is a readable
directory and raises otherwise (`scanRaise`).  For a readable listing,
run the prologue, interleave `add_dir_entry` with recursive scans of
the immediate child directories (`scanEntries`), and finish. -/
def scanF (path : String) (parent : Option String) (depth : Nat)
    (clock : Int) : FNode → List Directory × Directory × Int
  | .dir _ (some es) =>
      scanFinish
        (scanEntries path depth es (scanStart path parent depth clock)
          (clock + 1))
  | .dir _ none => scanRaise path parent depth clock
  | .file _ => scanRaise path parent depth clock
  | .symlink _ => scanRaise path parent depth clock
  | .special _ => scanRaise path parent depth clock
termination_by structural fn => fn

/-- The loop of `scan` over the scandir listing: every entry is passed
to `add_dir_entry`; an entry with `is_dir(follow_symlinks=False)` is in
addition recursively scanned (path `base + "/" + name`, parent `base`,
depth `depth + 1`) and folded in with `add_child_directory`. -/
def scanEntries (base : String) (depth : Nat) :
    List (String × FNode) → Directory → Int →
    List Directory × Directory × Int
  | [], d, clock => ([], d, clock)
  | (name, fn) :: rest, d, clock =>
      let d1 := addDirEntry d fn
      match fn with
      | .dir _ _ =>
          let r := scanF (base ++ "/" ++ name) (some base) (depth + 1) clock fn
          let d2 := addChildDirectory d1 r.2.1
          let r2 := scanEntries base depth rest d2 r.2.2
          (r.1 ++ r2.1, r2.2.1, r2.2.2)
      | .file _ => scanEntries base depth rest d1 clock
      | .symlink _ => scanEntries base depth rest d1 clock
      | .special _ => scanEntries base depth rest d1 clock
termination_by structural es d clock => es
end

/-- `Directory(path, parent, depth).scan()` for a path whose
`os.scandir` outcome is `cont`. -/
def scan (path : String) (parent : Option String) (depth : Nat)
    (clock : Int) : Option (List (String × FNode)) →
    List Directory × Directory × Int
  | none => scanRaise path parent depth clock
  | some es =>
      scanFinish
        (scanEntries path depth es (scanStart path parent depth clock)
          (clock + 1))

/-- All suffixes of a character list, longest first. -/
def charSuffixes : List Char → List (List Char)
  | [] => [[]]
  | c :: s => (c :: s) :: charSuffixes s

/-- SQL `LIKE` on explicit character lists: `%` matches any run of
characters (i.e. the rest of the pattern matches some suffix), `_`
matches exactly one character, anything else matches itself.  (The
source never passes an `ESCAPE` clause.) -/
def likeMatch : List Char → List Char → Bool
  | [], s => s.isEmpty
  | p :: ps, s =>
      if p = '%' then (charSuffixes s).any (fun t => likeMatch ps t)
      else
        match s with
        | [] => false
        | c :: s' => (if p = '_' then true else p == c) && likeMatch ps s'

/-- `column.like(pattern)` on strings. -/
def sqlLike (pattern s : String) : Bool :=
  likeMatch pattern.data s.data

/-- The `directories` table: a list of records, keyed by the primary key
`path`. -/
abbrev Store := List Directory

/-- `query().get(path)`: the record with the given primary key. -/
def Store.get (s : Store) (p : String) : Option Directory :=
  s.find? (fun d => d.path == p)

/-- `session.merge(d)` followed by commit: update the row with `d.path`
if present, insert otherwise. -/
def Store.upsert (s : Store) (d : Directory) : Store :=
  if s.any (fun c => c.path == d.path) then
    s.map (fun c => if c.path == d.path then d else c)
  else s ++ [d]

/-- The row predicate of `delete_tree(top)`:
`path == top OR path LIKE top + '/%'`. -/
def treeHit (top q : String) : Bool :=
  q == top || sqlLike (top ++ "/%") q

/-- `delete_tree(top)`: bulk delete of every row hit by `treeHit`. -/
def deleteTree (store : Store) (top : String) : Store :=
  store.filter (fun d => !(treeHit top d.path))

/-- `add_directory(Directory(path, parent, depth))`: `delete_tree` the
target path, then run `scan` and add every generated node (batched
`add_all`/`commit` preserving generation order).  Returns the updated
store, the scanned top node, and the advanced clock. -/
def addDirectory (store : Store) (cont : Option (List (String × FNode)))
    (path : String) (parent : Option String) (depth : Nat) (clock : Int) :
    Store × Directory × Int :=
  let store1 := deleteTree store path
  let r := scan path parent depth clock cont
  (r.1.foldl Store.upsert store1, r.2.1, r.2.2)

/-- `children_index.pop(path)` on an index held as a list: remove and
return the record with the given path, if any. -/
def popPath : List Directory → String → Option Directory × List Directory
  | [], _ => (none, [])
  | c :: rest, p =>
      if c.path == p then (some c, rest)
      else
        let r := popPath rest p
        (r.1, c :: r.2)

/-- Lexicographic code-point comparison on character lists (Python's
string ordering). -/
def charListLe : List Char → List Char → Bool
  | [], _ => true
  | _ :: _, [] => false
  | a :: as, b :: bs =>
      if a < b then true else if b < a then false else charListLe as bs

def strLe (a b : String) : Bool := charListLe a.data b.data

/-- Insert into a sorted list of strings. -/
def insertSorted (s : String) : List String → List String
  | [] => [s]
  | t :: rest =>
      if strLe s t then s :: t :: rest else t :: insertSorted s rest

/-- Python's `sorted` on a list of strings (ascending). -/
def sortStrings : List String → List String
  | [] => []
  | s :: rest => insertSorted s (sortStrings rest)

/-- The deletion loop of `local_hybrid_refresh`: for each path still in
the children index (in sorted order), `session.delete` its record and
`delete_tree` its subtree. -/
def deleteMissing (store : Store) : List String → Store
  | [] => store
  | p :: rest =>
      deleteMissing (deleteTree (store.filter (fun c => !(c.path == p))) p) rest

/-- The loop of `local_hybrid_refresh` over
`directory.generate_local_contents()`: every live entry is folded with
`add_dir_entry`; a live immediate child directory is popped from the
stored-children index when present (its *persisted* aggregate is folded
in), otherwise it is new and `add_directory` scans and persists it
before folding. -/
def refreshEntries (base : String) (depth : Nat) :
    List (String × FNode) → Directory → List Directory → Store → Int →
    Store × Directory × List Directory × Int
  | [], d, index, store, clock => (store, d, index, clock)
  | (name, fn) :: rest, d, index, store, clock =>
      let d1 := addDirEntry d fn
      match fn with
      | .dir _ sub =>
          let cpath := base ++ "/" ++ name
          match popPath index cpath with
          | (some c, index') =>
              refreshEntries base depth rest (addChildDirectory d1 c) index' store clock
          | (none, index') =>
              let r := addDirectory store sub cpath (some base) (depth + 1) clock
              refreshEntries base depth rest (addChildDirectory d1 r.2.1) index' r.1 r.2.2
      | _ => refreshEntries base depth rest d1 index store clock

/-- The stored immediate children of a path:
`query().filter(Directory.parent == path)`. -/
def storedChildren (store : Store) (p : String) : List Directory :=
  store.filter (fun c => c.parent == some p)

/-- `local_hybrid_refresh(directory)`: snapshot the stored immediate
children (`parent == directory.path`) into an index; iterate
`generate_local_contents()` (which first runs `clear()`, then either
counts a scandir failure or folds the live entries, popping stored
children and scanning new ones); delete the subtree of every stored
child no longer present live (in sorted path order); finally
`set_last_updated()` and `merge` + `commit` the directory. -/
def localRefresh (store : Store) (d0 : Directory)
    (cont : Option (List (String × FNode))) (clock : Int) :
    Store × Directory × Int :=
  let index0 := storedChildren store d0.path
  let d1 := d0.clear
  match cont with
  | none =>
      let d2 := { d1 with num_exceptions := d1.num_exceptions + 1 }
      let store1 := deleteMissing store (sortStrings (index0.map (·.path)))
      let d3 := { d2 with last_updated := clock }
      (store1.upsert d3, d3, clock + 1)
  | some es =>
      let r := refreshEntries d0.path d0.depth es d1 index0 store clock
      let store1 := deleteMissing r.1 (sortStrings (r.2.2.1.map (·.path)))
      let d3 := { r.2.1 with last_updated := r.2.2.2 }
      (store1.upsert d3, d3, r.2.2.2 + 1)

/-- `fetch_parent(directory)`: `None` when the parent attribute is falsy
(`None` or the empty string), otherwise `query().get(parent)`. -/
def fetchParent (store : Store) (d : Directory) : Option Directory :=
  match d.parent with
  | none => none
  | some p => if p = "" then none else store.get p

/-- The `while current_directory:` loop of `hybrid_refresh`: refresh the
current node, then move to `fetch_parent` of it, remembering the last
node refreshed.  The loop in the source has no bound; `fuel` only cuts
off chains longer than the caller's bound (every theorem below supplies
enough fuel for its chain). -/
def hybridGo (fs : String → Option (List (String × FNode)))
    (store : Store) (d : Directory) (clock : Int) :
    Nat → Store × Directory × Int
  | 0 => (store, d, clock)
  | fuel + 1 =>
      let r := localRefresh store d (fs d.path) clock
      match fetchParent r.1 r.2.1 with
      | none => r
      | some pd => hybridGo fs r.1 pd r.2.2 fuel

/-- `hybrid_refresh(top_path)`: start from the stored record of
`top_path`, or a fresh `Directory(top_path)` when absent, then walk
upward with `fetch_parent`, locally refreshing each node; return the
store, the highest node refreshed, and the clock. -/
def hybridRefresh (fs : String → Option (List (String × FNode)))
    (store : Store) (topPath : String) (clock : Int) (fuel : Nat) :
    Store × Directory × Int :=
  let cur := (store.get topPath).getD (Directory.init topPath none none)
  hybridGo fs store cur clock fuel

/-! ## The aggregate view

The eleven fields the spec calls a node's *aggregates*: the three max
times and the eight cumulative counters.  (`max_depth` is treated
separately, and the three bookkeeping timestamps are excluded.) -/

/-- The aggregate fields of a `Directory`. -/
structure Agg where
  max_atime : Int
  max_ctime : Int
  max_mtime : Int
  num_blocks : Nat
  num_bytes : Nat
  num_files : Nat
  num_dirs : Nat
  num_symlinks : Nat
  num_multi_links : Nat
  num_specials : Nat
  num_exceptions : Nat
deriving DecidableEq, Repr

/-- Project the aggregate fields out of a record. -/
def aggOf (d : Directory) : Agg :=
  { max_atime := d.max_atime, max_ctime := d.max_ctime,
    max_mtime := d.max_mtime,
    num_blocks := d.num_blocks, num_bytes := d.num_bytes,
    num_files := d.num_files, num_dirs := d.num_dirs,
    num_symlinks := d.num_symlinks, num_multi_links := d.num_multi_links,
    num_specials := d.num_specials, num_exceptions := d.num_exceptions }

/-- The aggregate-closure combination: max on times, sum on counters —
the effect of `add_child_directory` on the aggregate fields. -/
def Agg.comb (a b : Agg) : Agg :=
  { max_atime := max a.max_atime b.max_atime,
    max_ctime := max a.max_ctime b.max_ctime,
    max_mtime := max a.max_mtime b.max_mtime,
    num_blocks := a.num_blocks + b.num_blocks,
    num_bytes := a.num_bytes + b.num_bytes,
    num_files := a.num_files + b.num_files,
    num_dirs := a.num_dirs + b.num_dirs,
    num_symlinks := a.num_symlinks + b.num_symlinks,
    num_multi_links := a.num_multi_links + b.num_multi_links,
    num_specials := a.num_specials + b.num_specials,
    num_exceptions := a.num_exceptions + b.num_exceptions }

/-- The aggregates of a freshly cleared node: `-1` sentinels, zero
counts. -/
def Agg.base : Agg :=
  { max_atime := -1, max_ctime := -1, max_mtime := -1,
    num_blocks := 0, num_bytes := 0, num_files := 0, num_dirs := 0,
    num_symlinks := 0, num_multi_links := 0, num_specials := 0,
    num_exceptions := 0 }

/-- The contribution a single successfully-stat'ed entry makes in
`add_dir_entry`: its own times, plus the per-classification counts. -/
def entryAgg (fn : FNode) : Agg :=
  let st := fn.stat
  { max_atime := st.atime, max_ctime := st.ctime, max_mtime := st.mtime,
    num_blocks :=
      match fn with
      | .file _ => pyRound st.blocks st.nlink
      | .dir _ _ => st.blocks
      | _ => 0,
    num_bytes := match fn with | .file _ => pyRound st.size st.nlink | _ => 0,
    num_files := match fn with | .file _ => 1 | _ => 0,
    num_dirs := match fn with | .dir _ _ => 1 | _ => 0,
    num_symlinks := match fn with | .symlink _ => 1 | _ => 0,
    num_multi_links :=
      match fn with | .file _ => if st.nlink ≠ 1 then 1 else 0 | _ => 0,
    num_specials := match fn with | .special _ => 1 | _ => 0,
    num_exceptions := 0 }

theorem Agg.comb_comm (a b : Agg) : a.comb b = b.comb a := by
  cases a; cases b
  simp only [comb, mk.injEq]
  exact ⟨max_comm _ _, max_comm _ _, max_comm _ _, by omega, by omega,
    by omega, by omega, by omega, by omega, by omega, by omega⟩

theorem Agg.comb_assoc (a b c : Agg) :
    (a.comb b).comb c = a.comb (b.comb c) := by
  cases a; cases b; cases c
  simp only [comb, mk.injEq]
  exact ⟨max_assoc _ _ _, max_assoc _ _ _, max_assoc _ _ _, by omega,
    by omega, by omega, by omega, by omega, by omega, by omega, by omega⟩

theorem Agg.comb_right_comm (a b c : Agg) :
    (a.comb b).comb c = (a.comb c).comb b := by
  rw [comb_assoc, comb_comm b c, ← comb_assoc]

theorem aggOf_clear (d : Directory) : aggOf d.clear = Agg.base := rfl

theorem aggOf_addDirEntry (d : Directory) (fn : FNode) :
    aggOf (addDirEntry d fn) = (aggOf d).comb (entryAgg fn) := by
  cases fn <;>
    simp only [addDirEntry, entryAgg, aggOf, Agg.comb, FNode.stat] <;>
    (try split) <;> simp

theorem aggOf_addChildDirectory (d c : Directory) :
    aggOf (addChildDirectory d c) = (aggOf d).comb (aggOf c) := rfl

theorem aggOf_finish (d : Directory) (t : Int) :
    aggOf { d with scan_finished := t, last_updated := t } = aggOf d := rfl

/-! ## Clock-independent characterization of `scan`'s aggregates -/

mutual

/-- The aggregates a scan of the directory behind a scandir entry
computes, expressed recursively and independently of path, depth and
clock. -/
def scanAggF : FNode → Agg
  | .dir _ (some es) => scanAggEntries es Agg.base
  | _ => { Agg.base with num_exceptions := 1 }
termination_by structural fn => fn

/-- The running aggregate of `scan`'s entry loop. -/
def scanAggEntries : List (String × FNode) → Agg → Agg
  | [], a => a
  | (_, fn) :: rest, a =>
      match fn with
      | .dir _ _ =>
          scanAggEntries rest ((a.comb (entryAgg fn)).comb (scanAggF fn))
      | _ => scanAggEntries rest (a.comb (entryAgg fn))
termination_by structural es a => es
end

/-- The aggregates `scan` computes for a directory with the given
scandir outcome. -/
def scanAgg : Option (List (String × FNode)) → Agg
  | none => { Agg.base with num_exceptions := 1 }
  | some es => scanAggEntries es Agg.base

theorem scanAggF_dir (st : Stat) (sub : Option (List (String × FNode))) :
    scanAggF (.dir st sub) = scanAgg sub := by
  cases sub <;> rfl

theorem aggOf_scanFinish (r : List Directory × Directory × Int) :
    aggOf (scanFinish r).2.1 = aggOf r.2.1 := rfl

theorem aggOf_scanStart (path : String) (parent : Option String)
    (depth : Nat) (clock : Int) :
    aggOf (scanStart path parent depth clock) = Agg.base := rfl

mutual

theorem scanF_agg (path : String) (parent : Option String) (depth : Nat)
    (clock : Int) (fn : FNode) :
    aggOf (scanF path parent depth clock fn).2.1 = scanAggF fn := by
  cases fn with
  | dir st sub =>
      cases sub with
      | none => rfl
      | some es =>
          simp only [scanF, scanAggF]
          rw [aggOf_scanFinish, scanEntries_agg, aggOf_scanStart]
  | file st => rfl
  | symlink st => rfl
  | special st => rfl

theorem scanEntries_agg (base : String) (depth : Nat)
    (es : List (String × FNode)) (d : Directory) (clock : Int) :
    aggOf (scanEntries base depth es d clock).2.1
      = scanAggEntries es (aggOf d) := by
  match es with
  | [] => simp only [scanEntries, scanAggEntries]
  | (name, fn) :: rest =>
      match hfn : fn with
      | .dir st sub =>
          have hs := scanF_agg (base ++ "/" ++ name) (some base) (depth + 1)
            clock fn
          have hr := scanEntries_agg base depth rest
            (addChildDirectory (addDirEntry d fn)
              (scanF (base ++ "/" ++ name) (some base) (depth + 1) clock
                fn).2.1)
            (scanF (base ++ "/" ++ name) (some base) (depth + 1) clock
              fn).2.2
          simp only [scanEntries, scanAggEntries, hfn] at *
          rw [hr, aggOf_addChildDirectory, aggOf_addDirEntry, hs]
      | .file st =>
          have hr := scanEntries_agg base depth rest (addDirEntry d fn) clock
          simp only [scanEntries, scanAggEntries, hfn] at *
          rw [hr, aggOf_addDirEntry]
      | .symlink st =>
          have hr := scanEntries_agg base depth rest (addDirEntry d fn) clock
          simp only [scanEntries, scanAggEntries, hfn] at *
          rw [hr, aggOf_addDirEntry]
      | .special st =>
          have hr := scanEntries_agg base depth rest (addDirEntry d fn) clock
          simp only [scanEntries, scanAggEntries, hfn] at *
          rw [hr, aggOf_addDirEntry]
end

theorem scan_agg (path : String) (parent : Option String) (depth : Nat)
    (clock : Int) (cont : Option (List (String × FNode))) :
    aggOf (scan path parent depth clock cont).2.1 = scanAgg cont := by
  cases cont with
  | none => rfl
  | some es =>
      simp only [scan, scanAgg]
      rw [aggOf_scanFinish, scanEntries_agg, aggOf_scanStart]

/-! ## Aggregate closure -/

/-- A node's *own direct-entry contribution*: the fold of `add_dir_entry`
over its live listing alone (children excluded); a failed listing
contributes one exception. -/
def ownAgg : Option (List (String × FNode)) → Agg
  | none => { Agg.base with num_exceptions := 1 }
  | some es => es.foldl (fun a e => a.comb (entryAgg e.2)) Agg.base

/-- The aggregates of the live immediate child directories, each computed
by a full scan of its subtree. -/
def liveChildScanAggs : Option (List (String × FNode)) → List Agg
  | none => []
  | some es =>
      es.filterMap (fun e =>
        match e.2 with
        | .dir _ sub => some (scanAgg sub)
        | _ => none)

/-- The aggregates `local_hybrid_refresh` folds in for the live immediate
child directories: the *persisted* record's aggregate when the child is
in the stored-children index (popping it), the full-scan aggregate when
it is new. -/
def refreshChildAggs (base : String) :
    List (String × FNode) → List Directory → List Agg
  | [], _ => []
  | (name, fn) :: rest, index =>
      match fn with
      | .dir _ sub =>
          match popPath index (base ++ "/" ++ name) with
          | (some c, index') => aggOf c :: refreshChildAggs base rest index'
          | (none, index') => scanAgg sub :: refreshChildAggs base rest index'
      | _ => refreshChildAggs base rest index

/-- What `local_hybrid_refresh` folds in for the children of the node at
`p`, starting from the stored-children index it snapshots. -/
def refreshLiveChildAggs (store : Store) (p : String) :
    Option (List (String × FNode)) → List Agg
  | none => []
  | some es => refreshChildAggs p es (storedChildren store p)

theorem foldl_comb_shift (l : List Agg) (a x : Agg) :
    List.foldl Agg.comb (a.comb x) l = (List.foldl Agg.comb a l).comb x := by
  induction l generalizing a with
  | nil => rfl
  | cons y l ih =>
      simp only [List.foldl_cons, Agg.comb_right_comm a x y, ih]

theorem foldl_entry_shift (es : List (String × FNode)) (a x : Agg) :
    es.foldl (fun b e => b.comb (entryAgg e.2)) (a.comb x)
      = (es.foldl (fun b e => b.comb (entryAgg e.2)) a).comb x := by
  induction es generalizing a with
  | nil => rfl
  | cons e es ih =>
      simp only [List.foldl_cons, Agg.comb_right_comm a x (entryAgg e.2), ih]

theorem scanAggEntries_decompose (es : List (String × FNode)) (a : Agg) :
    scanAggEntries es a
      = List.foldl Agg.comb
          (es.foldl (fun b e => b.comb (entryAgg e.2)) a)
          (liveChildScanAggs (some es)) := by
  induction es generalizing a with
  | nil => simp only [scanAggEntries, liveChildScanAggs, List.filterMap_nil,
      List.foldl_nil]
  | cons e es ih =>
      obtain ⟨name, fn⟩ := e
      cases fn with
      | dir st sub =>
          simp only [scanAggEntries, liveChildScanAggs, List.filterMap_cons,
            List.foldl_cons] at *
          rw [ih, foldl_entry_shift, foldl_comb_shift, scanAggF_dir,
            foldl_comb_shift]
      | file st =>
          simp only [scanAggEntries, liveChildScanAggs, List.filterMap_cons,
            List.foldl_cons] at *
          rw [ih]
      | symlink st =>
          simp only [scanAggEntries, liveChildScanAggs, List.filterMap_cons,
            List.foldl_cons] at *
          rw [ih]
      | special st =>
          simp only [scanAggEntries, liveChildScanAggs, List.filterMap_cons,
            List.foldl_cons] at *
          rw [ih]

theorem scanAgg_decompose (cont : Option (List (String × FNode))) :
    scanAgg cont
      = List.foldl Agg.comb (ownAgg cont) (liveChildScanAggs cont) := by
  cases cont with
  | none => simp only [scanAgg, ownAgg, liveChildScanAggs, List.foldl_nil]
  | some es =>
      simp only [scanAgg, ownAgg]
      exact scanAggEntries_decompose es Agg.base

theorem refreshEntries_agg (base : String) (depth : Nat)
    (es : List (String × FNode)) (d : Directory) (index : List Directory)
    (store : Store) (clock : Int) :
    aggOf (refreshEntries base depth es d index store clock).2.1
      = List.foldl Agg.comb
          (es.foldl (fun b e => b.comb (entryAgg e.2)) (aggOf d))
          (refreshChildAggs base es index) := by
  induction es generalizing d index store clock with
  | nil => simp only [refreshEntries, refreshChildAggs, List.foldl_nil]
  | cons e es ih =>
      obtain ⟨name, fn⟩ := e
      cases fn with
      | dir st sub =>
          rcases hp : popPath index (base ++ "/" ++ name) with ⟨c?, index'⟩
          cases c? with
          | some c =>
              simp only [refreshEntries, refreshChildAggs, hp,
                List.foldl_cons]
              rw [ih, aggOf_addChildDirectory, aggOf_addDirEntry,
                foldl_entry_shift, foldl_comb_shift]
          | none =>
              simp only [refreshEntries, refreshChildAggs, hp, addDirectory,
                List.foldl_cons]
              rw [ih, aggOf_addChildDirectory, aggOf_addDirEntry,
                scan_agg, foldl_entry_shift, foldl_comb_shift]
      | file st =>
          simp only [refreshEntries, refreshChildAggs, List.foldl_cons]
          rw [ih, aggOf_addDirEntry]
      | symlink st =>
          simp only [refreshEntries, refreshChildAggs, List.foldl_cons]
          rw [ih, aggOf_addDirEntry]
      | special st =>
          simp only [refreshEntries, refreshChildAggs, List.foldl_cons]
          rw [ih, aggOf_addDirEntry]

theorem aggOf_setLastUpdated (d : Directory) (t : Int) :
    aggOf { d with last_updated := t } = aggOf d := rfl

theorem localRefresh_agg (store : Store) (d0 : Directory)
    (cont : Option (List (String × FNode))) (clock : Int) :
    aggOf (localRefresh store d0 cont clock).2.1
      = List.foldl Agg.comb (ownAgg cont)
          (refreshLiveChildAggs store d0.path cont) := by
  cases cont with
  | none => rfl
  | some es =>
      simp only [localRefresh, refreshLiveChildAggs]
      rw [aggOf_setLastUpdated, refreshEntries_agg]
      rfl

/-- **C2.** After a scan or a local reconciliation step, the node's
eleven aggregate fields satisfy the closure rule: they equal the node's
own direct-entry contribution (`ownAgg`: the `add_dir_entry` fold over
its live listing, with a failed listing counted as one exception)
combined — sum for the eight counters, max for the three times — with
the aggregates of its live immediate child directories.  For a full
scan each child contributes its freshly scanned aggregate (`scanAgg`);
for `local_hybrid_refresh` each child found in the stored-children
index contributes its *persisted* aggregate and each new child its
freshly scanned (and just persisted) aggregate
(`refreshLiveChildAggs`).  Since every node a scan emits is itself the
root of the scan of its own subtree, the first equation covers every
node reachable from a scan's target. -/
theorem claim_C2_aggregate_closure (path : String) (parent : Option String)
    (depth : Nat) (clock clock' : Int)
    (cont : Option (List (String × FNode)))
    (store : Store) (d0 : Directory) :
    aggOf (scan path parent depth clock cont).2.1
        = List.foldl Agg.comb (ownAgg cont) (liveChildScanAggs cont)
      ∧ aggOf (localRefresh store d0 cont clock').2.1
        = List.foldl Agg.comb (ownAgg cont)
            (refreshLiveChildAggs store d0.path cont) := by
  constructor
  · rw [scan_agg, scanAgg_decompose]
  · exact localRefresh_agg store d0 cont clock'

/-! ## Preservation of location and bookkeeping fields -/

theorem addDirEntry_meta (d : Directory) (fn : FNode) :
    (addDirEntry d fn).path = d.path
    ∧ (addDirEntry d fn).parent = d.parent
    ∧ (addDirEntry d fn).depth = d.depth
    ∧ (addDirEntry d fn).max_depth = d.max_depth
    ∧ (addDirEntry d fn).scan_started = d.scan_started
    ∧ (addDirEntry d fn).scan_finished = d.scan_finished
    ∧ (addDirEntry d fn).last_updated = d.last_updated := by
  cases fn <;> simp only [addDirEntry] <;> (try split) <;> simp

theorem addChildDirectory_meta (d c : Directory) :
    (addChildDirectory d c).path = d.path
    ∧ (addChildDirectory d c).parent = d.parent
    ∧ (addChildDirectory d c).depth = d.depth
    ∧ (addChildDirectory d c).scan_started = d.scan_started
    ∧ (addChildDirectory d c).scan_finished = d.scan_finished
    ∧ (addChildDirectory d c).last_updated = d.last_updated :=
  ⟨rfl, rfl, rfl, rfl, rfl, rfl⟩

theorem scanEntries_meta (base : String) (depth : Nat)
    (es : List (String × FNode)) (d : Directory) (clock : Int) :
    (scanEntries base depth es d clock).2.1.path = d.path
    ∧ (scanEntries base depth es d clock).2.1.parent = d.parent
    ∧ (scanEntries base depth es d clock).2.1.depth = d.depth
    ∧ (scanEntries base depth es d clock).2.1.scan_started
        = d.scan_started := by
  induction es generalizing d clock with
  | nil => exact ⟨rfl, rfl, rfl, rfl⟩
  | cons e es ih =>
      obtain ⟨name, fn⟩ := e
      have hde := addDirEntry_meta d fn
      cases fn with
      | dir st sub =>
          have hcd := addChildDirectory_meta
            (addDirEntry d (FNode.dir st sub))
            (scanF (base ++ "/" ++ name) (some base) (depth + 1) clock
              (FNode.dir st sub)).2.1
          have := ih (addChildDirectory (addDirEntry d (FNode.dir st sub))
            (scanF (base ++ "/" ++ name) (some base) (depth + 1) clock
              (FNode.dir st sub)).2.1)
            (scanF (base ++ "/" ++ name) (some base) (depth + 1) clock
              (FNode.dir st sub)).2.2
          simp only [scanEntries]
          exact ⟨by rw [this.1, hcd.1, hde.1],
            by rw [this.2.1, hcd.2.1, hde.2.1],
            by rw [this.2.2.1, hcd.2.2.1, hde.2.2.1],
            by rw [this.2.2.2, hcd.2.2.2.1, hde.2.2.2.2.1]⟩
      | file st =>
          have := ih (addDirEntry d (FNode.file st)) clock
          simp only [scanEntries]
          exact ⟨by rw [this.1, hde.1], by rw [this.2.1, hde.2.1],
            by rw [this.2.2.1, hde.2.2.1],
            by rw [this.2.2.2, hde.2.2.2.2.1]⟩
      | symlink st =>
          have := ih (addDirEntry d (FNode.symlink st)) clock
          simp only [scanEntries]
          exact ⟨by rw [this.1, hde.1], by rw [this.2.1, hde.2.1],
            by rw [this.2.2.1, hde.2.2.1],
            by rw [this.2.2.2, hde.2.2.2.2.1]⟩
      | special st =>
          have := ih (addDirEntry d (FNode.special st)) clock
          simp only [scanEntries]
          exact ⟨by rw [this.1, hde.1], by rw [this.2.1, hde.2.1],
            by rw [this.2.2.1, hde.2.2.1],
            by rw [this.2.2.2, hde.2.2.2.2.1]⟩

/-! ## Stat failure (`add_dir_entry`'s except branch) -/

/-- The classification of a scandir entry, as answered by
`is_file` / `is_dir` / `is_symlink` (each `follow_symlinks=False`). -/
inductive EntryKind where
  | file
  | dir
  | symlink
  | special
deriving DecidableEq, Repr

/-- Package a classification and a stat record as an `FNode` (contents
irrelevant for entry-level accumulation). -/
def EntryKind.toFNode : EntryKind → Stat → FNode
  | .file, st => .file st
  | .dir, st => .dir st none
  | .symlink, st => .symlink st
  | .special, st => .special st

/-- `Directory.add_dir_entry` exactly as written, including the case
where `dir_entry.stat(follow_symlinks=False)` raises (`stat? = none`).
The `except` branch increments `num_exceptions`; control then falls
through to `self.max_atime = max(self.max_atime, int(stat.st_atime))`,
where the local `stat` was never bound, so the statement raises
`UnboundLocalError` — modelled as `.error` carrying the node as mutated
so far. -/
def addDirEntryE (d : Directory) (kind : EntryKind) (stat? : Option Stat) :
    Except Directory Directory :=
  match stat? with
  | none => .error { d with num_exceptions := d.num_exceptions + 1 }
  | some st => .ok (addDirEntry d (kind.toFNode st))

/-- The entry loop of `generate_local_contents` as consumed by `scan`:
an exception raised inside `add_dir_entry` propagates out of the
generator at the caller's `next()`, so the remaining entries are never
processed. -/
def addEntriesE (d : Directory) :
    List (EntryKind × Option Stat) → Except Directory Directory
  | [] => .ok d
  | (k, st?) :: rest =>
      match addDirEntryE d k st? with
      | .error d' => .error d'
      | .ok d' => addEntriesE d' rest

/-- A well-formed stat record for the concrete demonstrations. -/
def statA : Stat :=
  { atime := 10, ctime := 11, mtime := 12, size := 4096, blocks := 8,
    nlink := 1 }

/-- **C4** (demonstration of the code bug).  Walking a listing whose
first entry fails to stat and whose second entry is a readable regular
file: `num_exceptions` is incremented for the failed entry, but the
walk then *aborts* with the `UnboundLocalError` of `add_dir_entry`'s
fall-through use of the unbound `stat` — the readable file is never
counted — contradicting the claim that the walk continues past the
failed entry. -/
theorem claim_C4_stat_failure_aborts_walk :
    addEntriesE (Directory.init "/r" none none)
        [(EntryKind.file, none), (EntryKind.file, some statA)]
      = Except.error
          { Directory.init "/r" none none with num_exceptions := 1 }
      ∧ ∀ d', addEntriesE (Directory.init "/r" none none)
          [(EntryKind.file, none), (EntryKind.file, some statA)]
          = Except.ok d' → False := by
  constructor
  · rfl
  · intro d' h
    simp only [addEntriesE, addDirEntryE] at h
    exact Except.noConfusion h

/-! ## `scan_started` is wiped by the generator's `clear()` -/

/-- **C9** (demonstration of the code bug).  `scan` records
`scan_started = set_last_updated()` (here: clock 100), but the first
resumption of `generate_local_contents` begins with `self.clear()`,
which resets `scan_started` (and `last_updated`) to `-1`.  So even for
a perfectly readable empty directory the finished node carries
`scan_started = -1` — the "never set" sentinel — while `scan_finished`
and `last_updated` do hold the post-listing timestamp, contradicting
the claim that `scan_started` is a real timestamp with
`scan_started ≤ scan_finished` as recorded. -/
theorem claim_C9_scan_started_wiped :
    ((scan "/r" none 1 100 (some [])).2.1.scan_started = -1
      ∧ (scan "/r" none 1 100 (some [])).2.1.scan_finished = 101
      ∧ (scan "/r" none 1 100 (some [])).2.1.last_updated = 101)
    ∧ ∀ parent depth clock cont,
        (scan "/r" parent depth clock cont).2.1.scan_started = -1 := by
  refine ⟨⟨rfl, rfl, rfl⟩, ?_⟩
  intro parent depth clock cont
  cases cont with
  | none => rfl
  | some es =>
      have h := (scanEntries_meta "/r" depth es
        (scanStart "/r" parent depth clock) (clock + 1)).2.2.2
      simp only [scan]
      rw [show ∀ r, (scanFinish r).2.1.scan_started = r.2.1.scan_started
        from fun r => rfl]
      rw [h]
      rfl

/-! ## Stale `max_depth` after reconciliation -/

/-- The stored root record of the C10 scenario: `/r` once had a
grandchild at depth 3, so `max_depth = 3` was persisted. -/
def storeRecC10r : Directory :=
  { Directory.init "/r" none (some 1) with max_depth := 3 }

/-- The stored child record of the C10 scenario. -/
def storeRecC10s : Directory :=
  { Directory.init "/r/s" (some "/r") (some 2) with max_depth := 3 }

/-- **C10** (demonstration of the code bug).  `Directory.clear` resets
only the `timestamp` and `count` attributes (`CLEAR` skips the `depth`
semantics, whose `DEFAULT_MAP` entry is `None`), so a node reloaded
from the database keeps its stored `max_depth` through
`local_hybrid_refresh`.  After the only subdirectory of `/r` vanishes
and `/r` is refreshed, the updated record still says `max_depth = 3`,
although the claim's invariant requires
`max(depth(/r), ∅) = depth(/r) = 1`; the child's record itself was
correctly deleted. -/
theorem claim_C10_max_depth_stale :
    ((hybridRefresh (fun p => if p = "/r" then some [] else none)
          [storeRecC10r, storeRecC10s] "/r" 100 5).1.get "/r").map
        (fun d => (d.max_depth, d.depth))
      = some (3, 1)
    ∧ storedChildren
        (hybridRefresh (fun p => if p = "/r" then some [] else none)
          [storeRecC10r, storeRecC10s] "/r" 100 5).1 "/r" = [] := by
  constructor <;> rfl

/-! ## Post-order of the scan sequence -/

/-- A legal filename as the operating system guarantees it: nonempty and
free of the path separator. -/
def isName (n : String) : Bool :=
  n != "" && !(n.data.contains '/')

mutual

/-- Well-formedness of a filesystem node: every listing carries pairwise
distinct legal names (which `os.scandir` guarantees). -/
def wfF : FNode → Bool
  | .dir _ (some es) => wfList es
  | _ => true
termination_by structural fn => fn

/-- Well-formedness of a listing. -/
def wfList : List (String × FNode) → Bool
  | [] => true
  | (n, fn) :: rest =>
      isName n && wfF fn && !(rest.any (fun e => e.1 == n)) && wfList rest
termination_by structural es => es

end

/-- Well-formedness of a scandir outcome. -/
def wfCont : Option (List (String × FNode)) → Bool
  | none => true
  | some es => wfList es

/-- `x` is a strict path-ancestor of `y`: `x.path + "/"` is a string
prefix of `y.path`. -/
def strictAnc (x y : Directory) : Bool :=
  (x.path ++ "/").data.isPrefixOf y.path.data

/-- `q` lies at or strictly below `p`. -/
def pathUnder (p q : String) : Prop :=
  q = p ∨ ∃ t, q.data = p.data ++ '/' :: t

theorem slashData : ("/" : String).data = ['/'] := rfl

theorem pathUnder_extend {base n q : String}
    (h : pathUnder (base ++ "/" ++ n) q) :
    ∃ t, q.data = base.data ++ '/' :: t := by
  have hd : (base ++ "/" ++ n).data = base.data ++ '/' :: n.data := by
    rw [String.data_append, String.data_append, slashData, List.append_assoc]
    rfl
  rcases h with h | ⟨t, h⟩
  · exact ⟨n.data, by rw [h, hd]⟩
  · exact ⟨n.data ++ '/' :: t, by rw [h, hd]; simp⟩

theorem pathUnder_shape {base n q : String}
    (h : pathUnder (base ++ "/" ++ n) q) :
    ∃ S, q.data = base.data ++ '/' :: (n.data ++ S)
      ∧ (S = [] ∨ ∃ u, S = '/' :: u) := by
  have hd : (base ++ "/" ++ n).data = base.data ++ '/' :: n.data := by
    rw [String.data_append, String.data_append, slashData, List.append_assoc]
    rfl
  rcases h with h | ⟨t, h⟩
  · exact ⟨[], by rw [h, hd, List.append_nil], Or.inl rfl⟩
  · refine ⟨'/' :: t, ?_, Or.inr ⟨t, rfl⟩⟩
    rw [h, hd]
    simp

theorem isName_no_slash {n : String} (h : isName n = true) :
    ∀ c ∈ n.data, c ≠ '/' := by
  intro c hc hcc
  simp only [isName, Bool.and_eq_true, Bool.not_eq_true'] at h
  subst hcc
  have := h.2
  simp [List.contains] at this
  exact absurd hc (by simpa using this)

theorem takeWhileNotSlash (N S : List Char) (h1 : ∀ c ∈ N, c ≠ '/')
    (h2 : S = [] ∨ ∃ u, S = '/' :: u) :
    (N ++ S).takeWhile (fun c => c != '/') = N := by
  induction N with
  | nil =>
      rcases h2 with h | ⟨u, h⟩ <;> subst h <;>
        simp [List.takeWhile_cons]
  | cons c N ih =>
      have hc : c ≠ '/' := h1 c (List.mem_cons_self c N)
      simp only [List.cons_append, List.takeWhile_cons, bne_iff_ne, ne_eq,
        hc, not_false_eq_true, if_true, if_pos]
      rw [ih (fun x hx => h1 x (List.mem_cons_of_mem _ hx))]

/-- Subtrees of two distinctly-named siblings are path-incomparable: no
node at or below `base/n₁` is a strict path-ancestor of a node at or
below `base/n₂` when `n₁ ≠ n₂` and both names are slash-free. -/
theorem sibling_not_anc {base n₁ n₂ : String} {x y : Directory}
    (hn₁ : isName n₁ = true) (hn₂ : isName n₂ = true) (hne : n₁ ≠ n₂)
    (h₁ : pathUnder (base ++ "/" ++ n₁) x.path)
    (h₂ : pathUnder (base ++ "/" ++ n₂) y.path) :
    strictAnc x y = false := by
  rcases pathUnder_shape h₁ with ⟨S₁, hx, hS₁⟩
  rcases pathUnder_shape h₂ with ⟨S₂, hy, hS₂⟩
  by_contra hcon
  have htrue : ((x.path ++ "/").data).isPrefixOf y.path.data = true := by
    simpa [strictAnc] using hcon
  rcases (List.isPrefixOf_iff_prefix.mp htrue) with ⟨T, hT⟩
  rw [String.data_append, slashData, hx, hy] at hT
  simp only [List.append_assoc, List.cons_append, List.nil_append] at hT
  have h2 := List.append_cancel_left hT
  have h3 : n₁.data ++ (S₁ ++ '/' :: T) = n₂.data ++ S₂ := by
    injection h2
  have hS₁' : S₁ ++ '/' :: T = [] ∨ ∃ u, S₁ ++ '/' :: T = '/' :: u := by
    rcases hS₁ with h | ⟨u, h⟩ <;> subst h
    · exact Or.inr ⟨T, rfl⟩
    · exact Or.inr ⟨u ++ '/' :: T, rfl⟩
  have t₂ := takeWhileNotSlash n₂.data S₂ (isName_no_slash hn₂) hS₂
  have t₁ := takeWhileNotSlash n₁.data (S₁ ++ '/' :: T)
    (isName_no_slash hn₁) hS₁'
  rw [h3, t₂] at t₁
  exact hne (by ext1; exact t₁.symm)

theorem not_anc_of_longer {x y : Directory}
    (h : ∃ t, x.path.data = y.path.data ++ '/' :: t) :
    strictAnc x y = false := by
  rcases h with ⟨t, hx⟩
  by_contra hcon
  have htrue : ((x.path ++ "/").data).isPrefixOf y.path.data = true := by
    simpa [strictAnc] using hcon
  have hlen := (List.isPrefixOf_iff_prefix.mp htrue).length_le
  rw [String.data_append, slashData] at hlen
  simp only [List.length_append, hx, List.length_cons] at hlen
  omega

mutual

theorem scanF_post (path : String) (parent : Option String) (depth : Nat)
    (clock : Int) (fn : FNode) (h : wfF fn = true) :
    (scanF path parent depth clock fn).1.getLast?
        = some (scanF path parent depth clock fn).2.1
    ∧ (scanF path parent depth clock fn).2.1.path = path
    ∧ (∀ x ∈ (scanF path parent depth clock fn).1, pathUnder path x.path)
    ∧ (scanF path parent depth clock fn).1.Pairwise
        (fun a b => strictAnc a b = false) := by
  cases fn with
  | dir st sub =>
      cases sub with
      | none =>
          exact ⟨rfl, rfl, fun x hx => by
              rcases List.mem_singleton.mp hx with rfl
              exact Or.inl rfl,
            List.pairwise_singleton _ _⟩
      | some es =>
          have hes : wfList es = true := h
          have hE := scanEntries_post path depth es
            (scanStart path parent depth clock) (clock + 1) hes
          have hpath : (scanEntries path depth es
              (scanStart path parent depth clock) (clock + 1)).2.1.path
              = path :=
            (scanEntries_meta path depth es
              (scanStart path parent depth clock) (clock + 1)).1
          simp only [scanF, scanFinish]
          refine ⟨List.getLast?_concat _, hpath, ?_, ?_⟩
          · intro x hx
            rcases List.mem_append.mp hx with hx | hx
            · rcases hE.1 x hx with ⟨n, fn', _, _, hu⟩
              exact Or.inr (pathUnder_extend hu)
            · rcases List.mem_singleton.mp hx with rfl
              exact Or.inl hpath
          · rw [List.pairwise_append]
            refine ⟨hE.2, List.pairwise_singleton _ _, ?_⟩
            intro a ha b hb
            rcases List.mem_singleton.mp hb with rfl
            rcases hE.1 a ha with ⟨n, fn', _, _, hu⟩
            apply not_anc_of_longer
            rcases pathUnder_extend hu with ⟨t, ht⟩
            exact ⟨t, by rw [ht, hpath]⟩
  | file st =>
      exact ⟨rfl, rfl, fun x hx => by
          rcases List.mem_singleton.mp hx with rfl
          exact Or.inl rfl,
        List.pairwise_singleton _ _⟩
  | symlink st =>
      exact ⟨rfl, rfl, fun x hx => by
          rcases List.mem_singleton.mp hx with rfl
          exact Or.inl rfl,
        List.pairwise_singleton _ _⟩
  | special st =>
      exact ⟨rfl, rfl, fun x hx => by
          rcases List.mem_singleton.mp hx with rfl
          exact Or.inl rfl,
        List.pairwise_singleton _ _⟩

theorem scanEntries_post (base : String) (depth : Nat)
    (es : List (String × FNode)) (d : Directory) (clock : Int)
    (h : wfList es = true) :
    (∀ x ∈ (scanEntries base depth es d clock).1,
        ∃ n fn', (n, fn') ∈ es ∧ isName n = true
          ∧ pathUnder (base ++ "/" ++ n) x.path)
    ∧ (scanEntries base depth es d clock).1.Pairwise
        (fun a b => strictAnc a b = false) := by
  match es with
  | [] => exact ⟨fun x hx => absurd hx (List.not_mem_nil x), List.Pairwise.nil⟩
  | (n, fn) :: rest =>
      simp only [wfList, Bool.and_eq_true, Bool.not_eq_true'] at h
      obtain ⟨⟨⟨hn, hfn⟩, hnodup⟩, hrest⟩ := h
      have hnot : ∀ e ∈ rest, ¬ (e.1 = n) := by
        intro e he hee
        have := List.any_eq_false.mp hnodup e he
        simp [hee] at this
      cases fn with
      | dir st sub =>
          have hB := scanF_post (base ++ "/" ++ n) (some base) (depth + 1)
            clock (FNode.dir st sub) hfn
          have hR := scanEntries_post base depth rest
            (addChildDirectory (addDirEntry d (FNode.dir st sub))
              (scanF (base ++ "/" ++ n) (some base) (depth + 1) clock
                (FNode.dir st sub)).2.1)
            (scanF (base ++ "/" ++ n) (some base) (depth + 1) clock
              (FNode.dir st sub)).2.2 hrest
          simp only [scanEntries]
          constructor
          · intro x hx
            rcases List.mem_append.mp hx with hx | hx
            · exact ⟨n, FNode.dir st sub, List.mem_cons_self _ _, hn,
                hB.2.2.1 x hx⟩
            · rcases hR.1 x hx with ⟨m, fm, hm, hmn, hu⟩
              exact ⟨m, fm, List.mem_cons_of_mem _ hm, hmn, hu⟩
          · rw [List.pairwise_append]
            refine ⟨hB.2.2.2, hR.2, ?_⟩
            intro a ha b hb
            rcases hR.1 b hb with ⟨m, fm, hm, hmn, hu⟩
            exact sibling_not_anc hn hmn
              (fun hnm => hnot (m, fm) hm (by simpa using hnm.symm))
              (hB.2.2.1 a ha) hu
      | file st =>
          have hR := scanEntries_post base depth rest
            (addDirEntry d (FNode.file st)) clock hrest
          simp only [scanEntries]
          exact ⟨fun x hx => by
              rcases hR.1 x hx with ⟨m, fm, hm, hmn, hu⟩
              exact ⟨m, fm, List.mem_cons_of_mem _ hm, hmn, hu⟩,
            hR.2⟩
      | symlink st =>
          have hR := scanEntries_post base depth rest
            (addDirEntry d (FNode.symlink st)) clock hrest
          simp only [scanEntries]
          exact ⟨fun x hx => by
              rcases hR.1 x hx with ⟨m, fm, hm, hmn, hu⟩
              exact ⟨m, fm, List.mem_cons_of_mem _ hm, hmn, hu⟩,
            hR.2⟩
      | special st =>
          have hR := scanEntries_post base depth rest
            (addDirEntry d (FNode.special st)) clock hrest
          simp only [scanEntries]
          exact ⟨fun x hx => by
              rcases hR.1 x hx with ⟨m, fm, hm, hmn, hu⟩
              exact ⟨m, fm, List.mem_cons_of_mem _ hm, hmn, hu⟩,
            hR.2⟩

end

/-- **C8.** For every path and every well-formed scandir outcome (names
pairwise distinct, nonempty, slash-free — what a real filesystem
guarantees), the sequence `scan` generates is in post-order: the root
node (whose path is the scanned path) is the last element, and no node
is a strict path-ancestor of any *later* node in the sequence — that
is, every descendant is emitted before its ancestor. -/
theorem claim_C8_scan_post_order (path : String) (parent : Option String)
    (depth : Nat) (clock : Int) (cont : Option (List (String × FNode)))
    (h : wfCont cont = true) :
    (scan path parent depth clock cont).1.getLast?
        = some (scan path parent depth clock cont).2.1
    ∧ (scan path parent depth clock cont).2.1.path = path
    ∧ (scan path parent depth clock cont).1.Pairwise
        (fun a b => strictAnc a b = false) := by
  cases cont with
  | none =>
      exact ⟨rfl, rfl, List.pairwise_singleton _ _⟩
  | some es =>
      have := scanF_post path parent depth clock
        (FNode.dir statA (some es)) h
      exact ⟨this.1, this.2.1, this.2.2.2⟩

/-- The C8 witness tree: `/r` containing file `a` and subdirectory `s`
which contains file `b`. -/
def treeC8 : Option (List (String × FNode)) :=
  some [("a", FNode.file statA),
        ("s", FNode.dir statA (some [("b", FNode.file statA)]))]

theorem claim_C8_scan_post_order_witness :
    wfCont treeC8 = true
    ∧ ((scan "/r" none 1 100 treeC8).1.getLast?
        = some (scan "/r" none 1 100 treeC8).2.1
      ∧ (scan "/r" none 1 100 treeC8).2.1.path = "/r"
      ∧ (scan "/r" none 1 100 treeC8).1.Pairwise
          (fun a b => strictAnc a b = false)) :=
  ⟨by decide, claim_C8_scan_post_order "/r" none 1 100 treeC8 (by decide)⟩

/-! ## The ancestor walk of `hybrid_refresh` -/

theorem Store.get_some {s : Store} {p : String} {d : Directory}
    (h : Store.get s p = some d) : d.path = p ∧ d ∈ s := by
  have hm := List.find?_some h
  have hmem := List.mem_of_find?_eq_some h
  exact ⟨by simpa using hm, hmem⟩

theorem refreshEntries_meta (base : String) (depth : Nat)
    (es : List (String × FNode)) (d : Directory) (index : List Directory)
    (store : Store) (clock : Int) :
    (refreshEntries base depth es d index store clock).2.1.path = d.path
    ∧ (refreshEntries base depth es d index store clock).2.1.parent
        = d.parent
    ∧ (refreshEntries base depth es d index store clock).2.1.depth
        = d.depth := by
  induction es generalizing d index store clock with
  | nil => exact ⟨rfl, rfl, rfl⟩
  | cons e es ih =>
      obtain ⟨name, fn⟩ := e
      have hde := addDirEntry_meta d fn
      cases fn with
      | dir st sub =>
          rcases hp : popPath index (base ++ "/" ++ name) with ⟨c?, index'⟩
          cases c? with
          | some c =>
              have hcd := addChildDirectory_meta
                (addDirEntry d (FNode.dir st sub)) c
              have := ih (addChildDirectory (addDirEntry d (FNode.dir st sub)) c)
                index' store clock
              simp only [refreshEntries, hp]
              exact ⟨by rw [this.1, hcd.1, hde.1],
                by rw [this.2.1, hcd.2.1, hde.2.1],
                by rw [this.2.2, hcd.2.2.1, hde.2.2.1]⟩
          | none =>
              have hcd := addChildDirectory_meta
                (addDirEntry d (FNode.dir st sub))
                (addDirectory store sub (base ++ "/" ++ name) (some base)
                  (depth + 1) clock).2.1
              have := ih (addChildDirectory (addDirEntry d (FNode.dir st sub))
                (addDirectory store sub (base ++ "/" ++ name) (some base)
                  (depth + 1) clock).2.1)
                index'
                (addDirectory store sub (base ++ "/" ++ name) (some base)
                  (depth + 1) clock).1
                (addDirectory store sub (base ++ "/" ++ name) (some base)
                  (depth + 1) clock).2.2
              simp only [refreshEntries, hp]
              exact ⟨by rw [this.1, hcd.1, hde.1],
                by rw [this.2.1, hcd.2.1, hde.2.1],
                by rw [this.2.2, hcd.2.2.1, hde.2.2.1]⟩
      | file st =>
          have := ih (addDirEntry d (FNode.file st)) index store clock
          simp only [refreshEntries]
          exact ⟨by rw [this.1, hde.1], by rw [this.2.1, hde.2.1],
            by rw [this.2.2, hde.2.2.1]⟩
      | symlink st =>
          have := ih (addDirEntry d (FNode.symlink st)) index store clock
          simp only [refreshEntries]
          exact ⟨by rw [this.1, hde.1], by rw [this.2.1, hde.2.1],
            by rw [this.2.2, hde.2.2.1]⟩
      | special st =>
          have := ih (addDirEntry d (FNode.special st)) index store clock
          simp only [refreshEntries]
          exact ⟨by rw [this.1, hde.1], by rw [this.2.1, hde.2.1],
            by rw [this.2.2, hde.2.2.1]⟩

theorem localRefresh_meta (store : Store) (d : Directory)
    (cont : Option (List (String × FNode))) (clock : Int) :
    (localRefresh store d cont clock).2.1.path = d.path
    ∧ (localRefresh store d cont clock).2.1.parent = d.parent
    ∧ (localRefresh store d cont clock).2.1.depth = d.depth := by
  cases cont with
  | none => exact ⟨rfl, rfl, rfl⟩
  | some es =>
      have := refreshEntries_meta d.path d.depth es d.clear
        (storedChildren store d.path) store clock
      simp only [localRefresh]
      exact ⟨this.1, this.2.1, this.2.2⟩

/-- The stored ancestor record of the C7 counterexample: `/a` is in the
store (with a recognizable `last_updated` of 50 and `num_dirs = 0`). -/
def storeRecC7a : Directory :=
  { Directory.init "/a" none (some 1) with last_updated := 50 }

/-- The C7 counterexample filesystem: `/a` contains the directory `b`
(readable, empty), i.e. `/a/b` exists. -/
def fsC7 : String → Option (List (String × FNode)) :=
  fun p =>
    if p = "/a/b" then some []
    else if p = "/a" then some [("b", FNode.dir statA (some []))]
    else none

/-- **C7** (counterexample).  Refreshing `/a/b` while `/a` is tracked in
the store but `/a/b` is not: `hybrid_refresh` builds a *fresh*
`Directory("/a/b")`, whose `parent` attribute is `None` (the
constructor's default), so `fetch_parent` immediately returns `None`
and the walk never looks up `/a` — the stored ancestor `/a` is left
byte-identical (its `num_dirs` still 0, `last_updated` still 50, the
new child never folded in), refuting "every stored ancestor of the
refreshed path is reconciled". -/
theorem claim_C7_counterexample :
    (hybridRefresh fsC7 [storeRecC7a] "/a/b" 100 5).1.get "/a"
        = some storeRecC7a
    ∧ ((hybridRefresh fsC7 [storeRecC7a] "/a/b" 100 5).1.get "/a/b").isSome
        = true
    ∧ storeRecC7a.last_updated = 50 ∧ storeRecC7a.num_dirs = 0 := by
  exact ⟨by decide, by decide, rfl, rfl⟩

/-- **C7** (amended).  The ancestor walk follows each node's *stored
parent attribute*, not the syntactic parent of the refreshed path:
(1) when the target path has no record in the store, the fresh node's
parent attribute is `None`, so `hybrid_refresh` performs exactly one
local reconciliation (of the target) and returns that node — stored
ancestors are *not* reconciled; (2) when the target's record is stored
with a non-empty parent key that resolves in the store (a contiguous
chain), the walk continues: the parent is locally reconciled as well,
and (when the parent is itself a root record) its refreshed node is
returned.  Thus exactly the ancestors along the contiguous chain of
stored parent links are reconciled. -/
theorem claim_C7_walk_follows_stored_parent_chain
    (fs : String → Option (List (String × FNode))) (store : Store)
    (top pp : String) (clock : Int) (fuel : Nat) (d pd : Directory) :
    (Store.get store top = none →
      hybridRefresh fs store top clock (fuel + 1)
        = localRefresh store (Directory.init top none none) (fs top) clock)
    ∧ (Store.get store top = some d → d.parent = some pp → pp ≠ "" →
       Store.get (localRefresh store d (fs top) clock).1 pp = some pd →
       pd.parent = none →
       hybridRefresh fs store top clock (fuel + 2)
         = localRefresh (localRefresh store d (fs top) clock).1 pd (fs pp)
             (localRefresh store d (fs top) clock).2.2) := by
  constructor
  · intro h
    have hp0 : (Directory.init top none none).path = top := rfl
    have hpar : (localRefresh store (Directory.init top none none)
        (fs top) clock).2.1.parent = none :=
      (localRefresh_meta store (Directory.init top none none)
        (fs top) clock).2.1
    simp only [hybridRefresh, h, Option.getD_none, hybridGo, fetchParent,
      hp0, hpar]
  · intro hd hpar hpp hpd hpdp
    have hdp : d.path = top := (Store.get_some hd).1
    have h1 : (localRefresh store d (fs top) clock).2.1.parent = some pp :=
      (localRefresh_meta store d (fs top) clock).2.1.trans hpar
    have hpath : pd.path = pp := (Store.get_some hpd).1
    have h2 : (localRefresh (localRefresh store d (fs top) clock).1 pd
        (fs pp) (localRefresh store d (fs top) clock).2.2).2.1.parent
        = none :=
      (localRefresh_meta _ pd _ _).2.1.trans hpdp
    simp only [hybridRefresh, hd, Option.getD_some, hybridGo, fetchParent,
      hdp, h1, if_neg hpp, hpd, hpath, h2]

/-- The two-level store for the C7 witness: `/a` (a root record) and
`/a/b` (child of `/a`), matching `fsC7`. -/
def storeRecC7b : Directory :=
  { Directory.init "/a/b" (some "/a") (some 2) with last_updated := 50 }

theorem claim_C7_walk_witness :
    (Store.get ([storeRecC7a] : Store) "/a/b" = none
      ∧ hybridRefresh fsC7 [storeRecC7a] "/a/b" 100 5
          = localRefresh [storeRecC7a]
              (Directory.init "/a/b" none none) (fsC7 "/a/b") 100)
    ∧ (Store.get ([storeRecC7a, storeRecC7b] : Store) "/a/b"
          = some storeRecC7b
      ∧ hybridRefresh fsC7 [storeRecC7a, storeRecC7b] "/a/b" 100 5
          = localRefresh
              (localRefresh [storeRecC7a, storeRecC7b] storeRecC7b
                (fsC7 "/a/b") 100).1
              storeRecC7a
              (fsC7 "/a")
              (localRefresh [storeRecC7a, storeRecC7b] storeRecC7b
                (fsC7 "/a/b") 100).2.2) := by
  constructor
  · exact ⟨by decide,
      (claim_C7_walk_follows_stored_parent_chain fsC7 [storeRecC7a]
        "/a/b" "/a" 100 4 storeRecC7b storeRecC7a).1 (by decide)⟩
  · refine ⟨by decide, ?_⟩
    have h := (claim_C7_walk_follows_stored_parent_chain fsC7
      [storeRecC7a, storeRecC7b] "/a/b" "/a" 100 3 storeRecC7b
      storeRecC7a).2
      (by decide) (by decide) (by decide) (by decide) (by decide)
    exact h

/-! ## SQL LIKE on wildcard-free paths, and path disjointness -/

/-- A string free of the SQL LIKE wildcards `%` and `_`. -/
def plainStr (p : String) : Bool :=
  !(p.data.contains '%') && !(p.data.contains '_')

/-- A legal filename that additionally contains no LIKE wildcard. -/
def isPlainName (n : String) : Bool :=
  isName n && plainStr n

mutual

/-- Strong well-formedness: every name in every listing is a legal,
wildcard-free filename, and names are pairwise distinct. -/
def plainF : FNode → Bool
  | .dir _ (some es) => plainList es
  | _ => true
termination_by structural fn => fn

def plainList : List (String × FNode) → Bool
  | [] => true
  | (n, fn) :: rest =>
      isPlainName n && plainF fn && !(rest.any (fun e => e.1 == n))
        && plainList rest
termination_by structural es => es

end

/-- Strong well-formedness of a scandir outcome. -/
def plainCont : Option (List (String × FNode)) → Bool
  | none => true
  | some es => plainList es

mutual

theorem plainF_wf (fn : FNode) (h : plainF fn = true) : wfF fn = true := by
  cases fn with
  | dir st sub =>
      cases sub with
      | none => rfl
      | some es => exact plainList_wf es h
  | file st => rfl
  | symlink st => rfl
  | special st => rfl

theorem plainList_wf (es : List (String × FNode))
    (h : plainList es = true) : wfList es = true := by
  match es with
  | [] => rfl
  | (n, fn) :: rest =>
      simp only [plainList, Bool.and_eq_true] at h
      obtain ⟨⟨⟨hn, hfn⟩, hnd⟩, hrest⟩ := h
      simp only [wfList, Bool.and_eq_true]
      have hn' : isName n = true := by
        simp only [isPlainName, Bool.and_eq_true] at hn
        exact hn.1
      exact ⟨⟨⟨hn', plainF_wf fn hfn⟩, hnd⟩, plainList_wf rest hrest⟩

end

theorem plainStr_no_wild {p : String} (h : plainStr p = true) :
    ∀ c ∈ p.data, c ≠ '%' ∧ c ≠ '_' := by
  intro c hc
  simp only [plainStr, Bool.and_eq_true, Bool.not_eq_true'] at h
  constructor <;> intro hcc <;> subst hcc
  · have := h.1
    simp [List.contains] at this
    exact absurd hc (by simpa using this)
  · have := h.2
    simp [List.contains] at this
    exact absurd hc (by simpa using this)

theorem likeMatch_lit_nil {p : Char} (ps : List Char) (hp1 : p ≠ '%') :
    likeMatch (p :: ps) [] = false := by
  simp [likeMatch, if_neg hp1]

theorem likeMatch_lit_cons {p c : Char} (ps s : List Char) (hp1 : p ≠ '%')
    (hp2 : p ≠ '_') :
    likeMatch (p :: ps) (c :: s) = (p == c && likeMatch ps s) := by
  simp [likeMatch, if_neg hp1, if_neg hp2]

theorem likeMatch_pct (Q : List Char) : likeMatch ['%'] Q = true := by
  induction Q with
  | nil => rfl
  | cons c s ih =>
      have h2 : ((charSuffixes s).any fun t => t.isEmpty) = true := by
        simpa [likeMatch] using ih
      rw [show likeMatch ['%'] (c :: s)
          = ((charSuffixes (c :: s)).any fun t => t.isEmpty) from by
        simp [likeMatch]]
      rw [show charSuffixes (c :: s) = (c :: s) :: charSuffixes s from rfl,
        List.any_cons, h2]
      simp

theorem likeMatch_plain_iff (P Q : List Char)
    (h : ∀ c ∈ P, c ≠ '%' ∧ c ≠ '_') :
    likeMatch (P ++ ['/', '%']) Q = true ↔ ∃ t, Q = P ++ '/' :: t := by
  induction P generalizing Q with
  | nil =>
      cases Q with
      | nil =>
          rw [List.nil_append, likeMatch_lit_nil ['%'] (by decide)]
          simp
      | cons c s =>
          rw [List.nil_append, likeMatch_lit_cons ['%'] s (by decide)
            (by decide), likeMatch_pct]
          simp only [Bool.and_true, beq_iff_eq]
          constructor
          · rintro rfl
            exact ⟨s, rfl⟩
          · rintro ⟨t, ht⟩
            injection ht with h1 _
            exact h1.symm
  | cons p P ih =>
      have hp := h p (List.mem_cons_self p P)
      cases Q with
      | nil =>
          rw [List.cons_append, likeMatch_lit_nil (P ++ ['/', '%']) hp.1]
          simp
      | cons c s =>
          rw [List.cons_append,
            likeMatch_lit_cons (P ++ ['/', '%']) s hp.1 hp.2]
          simp only [Bool.and_eq_true, beq_iff_eq]
          rw [ih s (fun x hx => h x (List.mem_cons_of_mem _ hx))]
          constructor
          · rintro ⟨rfl, t, rfl⟩
            exact ⟨t, rfl⟩
          · rintro ⟨t, ht⟩
            injection ht with h1 h2
            exact ⟨h1.symm, t, h2⟩

theorem sqlLike_plain_iff {p : String} (q : String)
    (h : plainStr p = true) :
    sqlLike (p ++ "/%") q = true ↔ ∃ t, q.data = p.data ++ '/' :: t := by
  have hd : (p ++ "/%").data = p.data ++ ['/', '%'] := by
    rw [String.data_append]
  rw [sqlLike, hd]
  exact likeMatch_plain_iff p.data q.data (plainStr_no_wild h)

/-- For a wildcard-free top path, the bulk-delete predicate of
`delete_tree` hits exactly the records at or strictly below the path. -/
theorem treeHit_iff {top : String} (q : String) (h : plainStr top = true) :
    treeHit top q = true ↔ pathUnder top q := by
  rw [treeHit, Bool.or_eq_true, beq_iff_eq, sqlLike_plain_iff q h, pathUnder]

/-- Subtrees of two distinctly-named siblings are disjoint: no path lies
at or below both `base/n₁` and `base/n₂` when `n₁ ≠ n₂`. -/
theorem pathUnder_disjoint {base n₁ n₂ q : String}
    (hn₁ : isName n₁ = true) (hn₂ : isName n₂ = true) (hne : n₁ ≠ n₂)
    (h₁ : pathUnder (base ++ "/" ++ n₁) q)
    (h₂ : pathUnder (base ++ "/" ++ n₂) q) : False := by
  rcases pathUnder_shape h₁ with ⟨S₁, hq₁, hS₁⟩
  rcases pathUnder_shape h₂ with ⟨S₂, hq₂, hS₂⟩
  rw [hq₁] at hq₂
  have h3 : n₁.data ++ S₁ = n₂.data ++ S₂ := by
    have := List.append_cancel_left hq₂
    injection this
  have t₁ := takeWhileNotSlash n₁.data S₁ (isName_no_slash hn₁) hS₁
  have t₂ := takeWhileNotSlash n₂.data S₂ (isName_no_slash hn₂) hS₂
  rw [h3, t₂] at t₁
  exact hne (by ext1; exact t₁.symm)

theorem pathUnder_ne_base {base n q : String}
    (h : pathUnder (base ++ "/" ++ n) q) : q ≠ base := by
  rcases pathUnder_extend h with ⟨t, ht⟩
  intro hq
  subst hq
  have h2 := congrArg List.length ht
  simp only [List.length_append, List.length_cons] at h2
  omega

/-! ## Lookup lemmas for the store -/

theorem find?_replace_ne (s : List Directory) (d : Directory) (q : String)
    (hq : d.path ≠ q) :
    (s.map (fun c => if c.path == d.path then d else c)).find?
        (fun c => c.path == q)
      = s.find? (fun c => c.path == q) := by
  induction s with
  | nil => rfl
  | cons c rest ih =>
      simp only [List.map_cons, List.find?]
      by_cases hc : c.path = d.path
      · rw [if_pos (by simpa using hc)]
        have h1 : (d.path == q) = false := by simpa using hq
        have h2 : (c.path == q) = false := by
          rw [hc]
          simpa using hq
        rw [h1, h2]
        exact ih
      · rw [if_neg (by simpa using hc)]
        cases hcq : (c.path == q) with
        | true => rfl
        | false => exact ih

theorem find?_replace_eq (s : List Directory) (d : Directory)
    (h : s.any (fun c => c.path == d.path) = true) :
    (s.map (fun c => if c.path == d.path then d else c)).find?
        (fun c => c.path == d.path)
      = some d := by
  induction s with
  | nil => simp at h
  | cons c rest ih =>
      simp only [List.map_cons, List.find?]
      by_cases hc : c.path = d.path
      · rw [if_pos (by simpa using hc)]
        simp
      · rw [if_neg (by simpa using hc)]
        have h2 : (c.path == d.path) = false := by simpa using hc
        rw [h2]
        rw [List.any_cons, h2] at h
        simp only [Bool.false_or] at h
        exact ih h

theorem Store.get_upsert (s : Store) (d : Directory) (q : String) :
    Store.get (Store.upsert s d) q
      = if d.path = q then some d else Store.get s q := by
  unfold Store.upsert
  split
  case isTrue hany =>
    by_cases hq : d.path = q
    · subst hq
      rw [if_pos rfl]
      exact find?_replace_eq s d hany
    · rw [if_neg hq]
      exact find?_replace_ne s d q hq
  case isFalse hany =>
    unfold Store.get
    rw [List.find?_append]
    by_cases hq : d.path = q
    · subst hq
      have hn : s.find? (fun c => c.path == d.path) = none := by
        rw [List.find?_eq_none]
        intro c hc
        intro hcc
        rw [List.any_eq_true] at hany
        exact hany ⟨c, hc, hcc⟩
      rw [hn]
      simp [List.find?]
    · rw [if_neg hq]
      cases hf : s.find? (fun c => c.path == q) with
      | some c => rfl
      | none =>
          simp only [Option.none_or]
          simp [List.find?, show (d.path == q) = false by simpa using hq]

theorem Store.get_filter (P : String → Bool) (s : Store) (q : String) :
    Store.get (s.filter (fun d => P d.path)) q
      = if P q then Store.get s q else none := by
  induction s with
  | nil => simp [Store.get]
  | cons c rest ih =>
      rw [List.filter_cons]
      by_cases hc : c.path = q
      · subst hc
        by_cases hp : P c.path = true
        · rw [if_pos hp, if_pos hp]
          unfold Store.get
          simp [List.find?]
        · rw [if_neg hp, ih, if_neg hp, if_neg hp]
      · have hcq : (c.path == q) = false := by simpa using hc
        have hskip2 : Store.get (c :: rest) q = Store.get rest q := by
          unfold Store.get
          exact List.find?_cons_of_neg _ (by simp [hcq])
        by_cases hp : P c.path = true
        · rw [if_pos hp]
          have hskip : Store.get
                (c :: List.filter (fun d => P d.path) rest) q
              = Store.get (List.filter (fun d => P d.path) rest) q := by
            unfold Store.get
            exact List.find?_cons_of_neg _ (by simp [hcq])
          rw [hskip, ih, hskip2]
        · rw [if_neg hp, ih, hskip2]

theorem get_deleteTree (s : Store) (top q : String) :
    Store.get (deleteTree s top) q
      = if treeHit top q then none else Store.get s q := by
  unfold deleteTree
  rw [Store.get_filter (fun x => !(treeHit top x)) s q]
  cases h : treeHit top q <;> simp [h]

theorem get_deleteMissing (ms : List String) (s : Store) (q : String) :
    Store.get (deleteMissing s ms) q
      = if ms.any (fun m => treeHit m q) then none else Store.get s q := by
  induction ms generalizing s with
  | nil => simp [deleteMissing]
  | cons m ms ih =>
      simp only [deleteMissing, List.any_cons, Bool.or_eq_true]
      rw [ih, get_deleteTree,
        Store.get_filter (fun x => !(x == m)) s q]
      by_cases hm : treeHit m q = true
      · simp [hm]
      · have hq : q ≠ m := by
          intro hq
          subst hq
          exact hm (by simp [treeHit])
        have hb : (q == m) = false := by simpa using hq
        simp [hm, hb]

/-- Accumulated overwrite of a record list onto an initial lookup
result: the last element with the given path wins. -/
theorem get_foldl_upsert (l : List Directory) (s : Store) (q : String) :
    Store.get (l.foldl Store.upsert s) q
      = l.foldl (fun acc d => if d.path = q then some d else acc)
          (Store.get s q) := by
  induction l generalizing s with
  | nil => rfl
  | cons d l ih =>
      simp only [List.foldl_cons]
      rw [ih, Store.get_upsert]

/-! ## Helpers for reasoning about `local_hybrid_refresh` -/

/-- `entry.is_dir(follow_symlinks=False)`. -/
def FNode.isDir : FNode → Bool
  | .dir _ _ => true
  | _ => false

theorem dataAppend3 (base n : String) :
    (base ++ "/" ++ n).data = base.data ++ '/' :: n.data := by
  rw [String.data_append, String.data_append, slashData, List.append_assoc]
  rfl

theorem plainStr_iff {p : String} :
    plainStr p = true ↔ '%' ∉ p.data ∧ '_' ∉ p.data := by
  simp [plainStr, List.contains]

theorem plainStr_append {base n : String} (hb : plainStr base = true)
    (hn : plainStr n = true) : plainStr (base ++ "/" ++ n) = true := by
  rw [plainStr_iff] at hb hn ⊢
  rw [dataAppend3]
  simp only [List.mem_append, List.mem_cons, not_or]
  exact ⟨⟨hb.1, by decide, hn.1⟩, ⟨hb.2, by decide, hn.2⟩⟩

theorem strAppendCancel {base a b : String}
    (h : base ++ "/" ++ a = base ++ "/" ++ b) : a = b := by
  have hd := congrArg String.data h
  rw [String.data_append, String.data_append, String.data_append,
    String.data_append] at hd
  have := List.append_cancel_left hd
  exact by ext1; exact this

theorem mem_insertSorted {a x : String} (l : List String) :
    a ∈ insertSorted x l ↔ a = x ∨ a ∈ l := by
  induction l with
  | nil => simp [insertSorted]
  | cons t rest ih =>
      simp only [insertSorted]
      split
      · simp
      · simp only [List.mem_cons, ih]
        tauto

theorem mem_sortStrings {a : String} (l : List String) :
    a ∈ sortStrings l ↔ a ∈ l := by
  induction l with
  | nil => simp [sortStrings]
  | cons x rest ih =>
      simp only [sortStrings, mem_insertSorted, ih, List.mem_cons]

theorem Store.get_of_mem {s : Store} {z : Directory} (hz : z ∈ s)
    (hnd : (s.map Directory.path).Nodup) : Store.get s z.path = some z := by
  induction s with
  | nil => cases hz
  | cons c rest ih =>
      rcases List.mem_cons.mp hz with rfl | hz'
      · unfold Store.get
        simp [List.find?]
      · have hnd' : (∀ x ∈ rest, ¬ x.path = c.path)
            ∧ (rest.map Directory.path).Nodup := by simpa using hnd
        have hne : c.path ≠ z.path := fun he => hnd'.1 z hz' he.symm
        unfold Store.get at *
        rw [List.find?_cons_of_neg _ (by simpa using hne)]
        exact ih hz' hnd'.2

theorem popPath_snd_sublist (index : List Directory) (p : String) :
    (popPath index p).2.Sublist index := by
  induction index with
  | nil => simp [popPath]
  | cons c rest ih =>
      simp only [popPath]
      split
      · exact List.sublist_cons_self c rest
      · exact ih.cons₂ c

theorem popPath_fst_of_any {index : List Directory} {p : String}
    (h : index.any (fun c => c.path == p) = true) :
    ∃ c, (popPath index p).1 = some c ∧ c.path = p ∧ c ∈ index := by
  induction index with
  | nil => simp at h
  | cons c rest ih =>
      simp only [popPath]
      by_cases hc : c.path = p
      · rw [if_pos (by simpa using hc)]
        exact ⟨c, rfl, hc, List.mem_cons_self c rest⟩
      · rw [if_neg (by simpa using hc)]
        have h' : rest.any (fun x => x.path == p) = true := by
          rw [List.any_cons] at h
          simpa [show (c.path == p) = false by simpa using hc] using h
        rcases ih h' with ⟨w, hw1, hw2, hw3⟩
        exact ⟨w, hw1, hw2, List.mem_cons_of_mem c hw3⟩

theorem popPath_mem_snd {index : List Directory} {p : String}
    {z : Directory} (hz : z ∈ index) (hne : z.path ≠ p) :
    z ∈ (popPath index p).2 := by
  induction index with
  | nil => cases hz
  | cons c rest ih =>
      simp only [popPath]
      rcases List.mem_cons.mp hz with rfl | hz'
      · rw [if_neg (by simpa using hne)]
        exact List.mem_cons_self z _
      · split
        · exact hz'
        · exact List.mem_cons_of_mem c (ih hz')

theorem popPath_snd_no_p {index : List Directory} {p : String}
    (hnd : (index.map Directory.path).Nodup) :
    ∀ z ∈ (popPath index p).2, z.path ≠ p := by
  induction index with
  | nil => simp [popPath]
  | cons c rest ih =>
      have hnd' : (∀ x ∈ rest, ¬ x.path = c.path)
          ∧ (rest.map Directory.path).Nodup := by simpa using hnd
      intro z hz
      simp only [popPath] at hz
      by_cases hc : c.path = p
      · rw [if_pos (by simpa using hc)] at hz
        intro hzp
        exact hnd'.1 z hz (hzp.trans hc.symm)
      · rw [if_neg (by simpa using hc)] at hz
        rcases List.mem_cons.mp hz with rfl | hz'
        · exact hc
        · exact ih hnd'.2 z hz'

theorem popPath_any_of_ne {index : List Directory} {p x : String}
    (h : index.any (fun c => c.path == x) = true) (hne : x ≠ p) :
    (popPath index p).2.any (fun c => c.path == x) = true := by
  rw [List.any_eq_true] at h ⊢
  rcases h with ⟨w, hw, hwp⟩
  have hwp' : w.path = x := by simpa using hwp
  exact ⟨w, popPath_mem_snd hw (by rw [hwp']; exact hne), hwp⟩

/-- When every live immediate child directory is already present in the
stored-children index, the entry loop of `local_hybrid_refresh` leaves
the store untouched; the leftover index is exactly the stored children
whose paths match no live child directory. -/
theorem refreshEntries_noNew (base : String) (depth : Nat)
    (es : List (String × FNode)) (d : Directory) (index : List Directory)
    (store : Store) (clock : Int)
    (hplain : plainList es = true)
    (hnd : (index.map Directory.path).Nodup)
    (hpres : ∀ e ∈ es, FNode.isDir e.2 = true →
      index.any (fun c => c.path == base ++ "/" ++ e.1) = true) :
    (refreshEntries base depth es d index store clock).1 = store
    ∧ (∀ z ∈ (refreshEntries base depth es d index store clock).2.2.1,
        z ∈ index)
    ∧ (∀ z ∈ index,
        (∀ e ∈ es, FNode.isDir e.2 = true → z.path ≠ base ++ "/" ++ e.1) →
        z ∈ (refreshEntries base depth es d index store clock).2.2.1)
    ∧ (∀ z ∈ index, ∀ e ∈ es, FNode.isDir e.2 = true →
        z.path = base ++ "/" ++ e.1 →
        z ∉ (refreshEntries base depth es d index store clock).2.2.1) := by
  match es with
  | [] =>
      refine ⟨rfl, fun z hz => hz, fun z hz _ => hz, ?_⟩
      intro z _ e he
      cases he
  | (m, fm) :: rest =>
      simp only [plainList, Bool.and_eq_true, Bool.not_eq_true'] at hplain
      obtain ⟨⟨⟨hm, hfm⟩, hnodupN⟩, hrest⟩ := hplain
      have hnames : ∀ e ∈ rest, e.1 ≠ m := by
        intro e he hee
        have := List.any_eq_false.mp hnodupN e he
        simp [hee] at this
      cases fm with
      | dir st sub =>
          have hany := hpres (m, FNode.dir st sub)
            (List.mem_cons_self _ _) rfl
          rcases popPath_fst_of_any hany with ⟨c, hc1, _, _⟩
          rcases hpp : popPath index (base ++ "/" ++ m) with ⟨c?, index'⟩
          rw [hpp] at hc1
          subst hc1
          have hsub := popPath_snd_sublist index (base ++ "/" ++ m)
          rw [hpp] at hsub
          have hnd' : (index'.map Directory.path).Nodup :=
            hnd.sublist (hsub.map Directory.path)
          have hpres' : ∀ e ∈ rest, FNode.isDir e.2 = true →
              index'.any (fun c => c.path == base ++ "/" ++ e.1) = true := by
            intro e he hdir
            have h0 := hpres e (List.mem_cons_of_mem _ he) hdir
            have hne : base ++ "/" ++ e.1 ≠ base ++ "/" ++ m :=
              fun hh => hnames e he (strAppendCancel hh)
            have := popPath_any_of_ne h0 hne
            rw [hpp] at this
            exact this
          have IH := refreshEntries_noNew base depth rest
            (addChildDirectory (addDirEntry d (FNode.dir st sub)) c)
            index' store clock hrest hnd' hpres'
          have hnop := @popPath_snd_no_p index (base ++ "/" ++ m) hnd
          rw [hpp] at hnop
          simp only [refreshEntries, hpp]
          refine ⟨IH.1, ?_, ?_, ?_⟩
          · intro z hz
            exact hsub.subset (IH.2.1 z hz)
          · intro z hz hall
            have hzne : z.path ≠ base ++ "/" ++ m :=
              hall (m, FNode.dir st sub) (List.mem_cons_self _ _) rfl
            have hz' : z ∈ index' := by
              have := popPath_mem_snd hz hzne
              rw [hpp] at this
              exact this
            exact IH.2.2.1 z hz' (fun e he hdir =>
              hall e (List.mem_cons_of_mem _ he) hdir)
          · intro z hz e he hdir hzp hmem
            rcases List.mem_cons.mp he with rfl | he'
            · exact hnop z (IH.2.1 z hmem) hzp
            · have hzne : z.path ≠ base ++ "/" ++ m := by
                rw [hzp]
                intro hh
                exact hnames e he' (strAppendCancel hh)
              have hz' : z ∈ index' := by
                have := popPath_mem_snd hz hzne
                rw [hpp] at this
                exact this
              exact IH.2.2.2 z hz' e he' hdir hzp hmem
      | file st =>
          have IH := refreshEntries_noNew base depth rest
            (addDirEntry d (FNode.file st)) index store clock hrest hnd
            (fun e he hdir => hpres e (List.mem_cons_of_mem _ he) hdir)
          simp only [refreshEntries]
          refine ⟨IH.1, IH.2.1, ?_, ?_⟩
          · intro z hz hall
            exact IH.2.2.1 z hz (fun e he hdir =>
              hall e (List.mem_cons_of_mem _ he) hdir)
          · intro z hz e he hdir hzp
            rcases List.mem_cons.mp he with rfl | he'
            · cases hdir
            · exact IH.2.2.2 z hz e he' hdir hzp
      | symlink st =>
          have IH := refreshEntries_noNew base depth rest
            (addDirEntry d (FNode.symlink st)) index store clock hrest hnd
            (fun e he hdir => hpres e (List.mem_cons_of_mem _ he) hdir)
          simp only [refreshEntries]
          refine ⟨IH.1, IH.2.1, ?_, ?_⟩
          · intro z hz hall
            exact IH.2.2.1 z hz (fun e he hdir =>
              hall e (List.mem_cons_of_mem _ he) hdir)
          · intro z hz e he hdir hzp
            rcases List.mem_cons.mp he with rfl | he'
            · cases hdir
            · exact IH.2.2.2 z hz e he' hdir hzp
      | special st =>
          have IH := refreshEntries_noNew base depth rest
            (addDirEntry d (FNode.special st)) index store clock hrest hnd
            (fun e he hdir => hpres e (List.mem_cons_of_mem _ he) hdir)
          simp only [refreshEntries]
          refine ⟨IH.1, IH.2.1, ?_, ?_⟩
          · intro z hz hall
            exact IH.2.2.1 z hz (fun e he hdir =>
              hall e (List.mem_cons_of_mem _ he) hdir)
          · intro z hz e he hdir hzp
            rcases List.mem_cons.mp he with rfl | he'
            · cases hdir
            · exact IH.2.2.2 z hz e he' hdir hzp

theorem path_inj {s : Store} (hnd : (s.map Directory.path).Nodup)
    {y z : Directory} (hy : y ∈ s) (hz : z ∈ s) (hp : y.path = z.path) :
    y = z := by
  have h1 := Store.get_of_mem hy hnd
  have h2 := Store.get_of_mem hz hnd
  rw [hp] at h1
  rw [h1] at h2
  injection h2

theorem storedChildren_nodup {store : Store} (p : String)
    (hnd : (store.map Directory.path).Nodup) :
    ((storedChildren store p).map Directory.path).Nodup :=
  hnd.sublist ((List.filter_sublist store).map Directory.path)

theorem mem_storedChildren {store : Store} {p : String} {c : Directory} :
    c ∈ storedChildren store p ↔ c ∈ store ∧ c.parent = some p := by
  simp [storedChildren, List.mem_filter]

theorem isPlainName_isName {n : String} (h : isPlainName n = true) :
    isName n = true := by
  simp only [isPlainName, Bool.and_eq_true] at h
  exact h.1

theorem isPlainName_plainStr {n : String} (h : isPlainName n = true) :
    plainStr n = true := by
  simp only [isPlainName, Bool.and_eq_true] at h
  exact h.2

theorem plainList_name {es : List (String × FNode)}
    (h : plainList es = true) : ∀ e ∈ es, isPlainName e.1 = true := by
  induction es with
  | nil => intro e he; cases he
  | cons x rest ih =>
      obtain ⟨m, fm⟩ := x
      simp only [plainList, Bool.and_eq_true] at h
      intro e he
      rcases List.mem_cons.mp he with rfl | he'
      · exact h.1.1.1
      · exact ih h.2 e he'

/-! ## C5: deletion propagation -/

/-- C5 counterexample data: the store tracks `/r`, `/r/s` and `/r/s/t`;
on the filesystem `/r/s/t` has been removed (`/r/s` is now empty). -/
def storeRecC5r : Directory := Directory.init "/r" none (some 1)

def storeRecC5s : Directory :=
  { Directory.init "/r/s" (some "/r") (some 2) with
    num_files := 1, num_bytes := 8192, num_blocks := 16 }

def storeRecC5t : Directory :=
  { Directory.init "/r/s/t" (some "/r/s") (some 3) with last_updated := 42 }

def fsC5 : String → Option (List (String × FNode)) :=
  fun p =>
    if p = "/r" then some [("s", FNode.dir statA (some []))]
    else if p = "/r/s" then some [] else none

/-- **C5** (counterexample).  `/r/s/t` was removed from the filesystem
and `refresh` is called on its ancestor `/r` (not its immediate parent
`/r/s`).  The reconciliation of `/r` sees `s` still live, folds the
*stale persisted* aggregate of `/r/s`, and never looks inside it, so
the record of the removed path `/r/s/t` is still in the store
afterwards — refuting the claim for non-parent ancestors. -/
theorem claim_C5_counterexample :
    ((hybridRefresh fsC5 [storeRecC5r, storeRecC5s, storeRecC5t]
        "/r" 100 5).1.get "/r/s/t") = some storeRecC5t := by decide

/-- **C5** (amended).  When the removed directory's *immediate parent*
is reconciled (one `local_hybrid_refresh` step, the step `refresh` runs
on the parent), with well-formed wildcard-free names, then:
(i) no record remains whose path equals the removed path or lies
strictly under it (the `path + "/"` LIKE boundary);
(ii) any still-live stored child record — in particular a sibling whose
path merely shares a string prefix with the removed path — is preserved
byte-identically;
(iii) if the parent's stored aggregates satisfied the closure rule
before (over the old listing which additionally contained the removed
entry `fnX` and the removed child's persisted aggregate), then each
additive aggregate decreases by exactly the removed subtree's prior
contribution (the child's persisted counters plus the removed entry's
own `add_dir_entry` contribution). -/
theorem claim_C5_deletion_on_immediate_parent
    (store : Store) (d0 : Directory) (es : List (String × FNode))
    (clock : Int) (X : Directory) (n : String)
    (hbase : plainStr d0.path = true)
    (hes : plainList es = true)
    (hnd : (store.map Directory.path).Nodup)
    (hshape : ∀ c ∈ store, c.parent = some d0.path →
      ∃ m', isPlainName m' = true ∧ c.path = d0.path ++ "/" ++ m')
    (hX : X ∈ store) (hXpar : X.parent = some d0.path)
    (hXpath : X.path = d0.path ++ "/" ++ n) (hn : isPlainName n = true)
    (hgone : ∀ e ∈ es, e.1 ≠ n)
    (hpres : ∀ e ∈ es, FNode.isDir e.2 = true →
      (storedChildren store d0.path).any
        (fun c => c.path == d0.path ++ "/" ++ e.1) = true) :
    (∀ q, pathUnder X.path q →
      Store.get (localRefresh store d0 (some es) clock).1 q = none)
    ∧ (∀ c ∈ store, c.parent = some d0.path →
        (∃ e ∈ es, FNode.isDir e.2 = true ∧ c.path = d0.path ++ "/" ++ e.1) →
        Store.get (localRefresh store d0 (some es) clock).1 c.path = some c)
    ∧ (∀ fnX, aggOf d0
          = (List.foldl Agg.comb (ownAgg (some es))
              (refreshLiveChildAggs store d0.path (some es))).comb
            ((entryAgg fnX).comb (aggOf X)) →
        (aggOf d0).num_blocks
            = (aggOf (localRefresh store d0 (some es) clock).2.1).num_blocks
              + (entryAgg fnX).num_blocks + (aggOf X).num_blocks
        ∧ (aggOf d0).num_bytes
            = (aggOf (localRefresh store d0 (some es) clock).2.1).num_bytes
              + (entryAgg fnX).num_bytes + (aggOf X).num_bytes
        ∧ (aggOf d0).num_files
            = (aggOf (localRefresh store d0 (some es) clock).2.1).num_files
              + (entryAgg fnX).num_files + (aggOf X).num_files
        ∧ (aggOf d0).num_dirs
            = (aggOf (localRefresh store d0 (some es) clock).2.1).num_dirs
              + (entryAgg fnX).num_dirs + (aggOf X).num_dirs
        ∧ (aggOf d0).num_symlinks
            = (aggOf (localRefresh store d0 (some es) clock).2.1).num_symlinks
              + (entryAgg fnX).num_symlinks + (aggOf X).num_symlinks
        ∧ (aggOf d0).num_multi_links
            = (aggOf (localRefresh store d0
                (some es) clock).2.1).num_multi_links
              + (entryAgg fnX).num_multi_links + (aggOf X).num_multi_links
        ∧ (aggOf d0).num_specials
            = (aggOf (localRefresh store d0 (some es) clock).2.1).num_specials
              + (entryAgg fnX).num_specials + (aggOf X).num_specials
        ∧ (aggOf d0).num_exceptions
            = (aggOf (localRefresh store d0
                (some es) clock).2.1).num_exceptions
              + (entryAgg fnX).num_exceptions + (aggOf X).num_exceptions) := by
  have hnd0 := @storedChildren_nodup store d0.path hnd
  have hNN := refreshEntries_noNew d0.path d0.depth es d0.clear
    (storedChildren store d0.path) store clock hes hnd0 hpres
  have hXin : X ∈ storedChildren store d0.path :=
    mem_storedChildren.mpr ⟨hX, hXpar⟩
  have hXleft : X ∈ (refreshEntries d0.path d0.depth es d0.clear
      (storedChildren store d0.path) store clock).2.2.1 := by
    apply hNN.2.2.1 X hXin
    intro e he _
    rw [hXpath]
    intro hh
    exact hgone e he (strAppendCancel hh).symm
  have hplainX : plainStr X.path = true := by
    rw [hXpath]
    exact plainStr_append hbase
      (by simp only [isPlainName, Bool.and_eq_true] at hn; exact hn.2)
  have hmeta := refreshEntries_meta d0.path d0.depth es d0.clear
    (storedChildren store d0.path) store clock
  have hd3path : (refreshEntries d0.path d0.depth es d0.clear
      (storedChildren store d0.path) store clock).2.1.path = d0.path :=
    hmeta.1
  have hcond : ({ (refreshEntries d0.path d0.depth es d0.clear
      (storedChildren store d0.path) store clock).2.1 with
      last_updated := (refreshEntries d0.path d0.depth es d0.clear
        (storedChildren store d0.path) store clock).2.2.2 }).path
      = d0.path := hd3path
  refine ⟨?_, ?_, ?_⟩
  · intro q hq
    rw [hXpath] at hq
    have hqbase : q ≠ d0.path := pathUnder_ne_base hq
    have hmemms : X.path ∈ sortStrings
        ((refreshEntries d0.path d0.depth es d0.clear
          (storedChildren store d0.path) store clock).2.2.1.map
            Directory.path) :=
      (mem_sortStrings _).mpr (List.mem_map_of_mem Directory.path hXleft)
    have hhit : treeHit X.path q = true := by
      rw [treeHit_iff q hplainX, hXpath]
      exact hq
    have hne1 : ({ (refreshEntries d0.path d0.depth es d0.clear
        (storedChildren store d0.path) store clock).2.1 with
        last_updated := (refreshEntries d0.path d0.depth es d0.clear
          (storedChildren store d0.path) store clock).2.2.2 }).path ≠ q :=
      fun hh => hqbase (hh.symm.trans hcond)
    simp only [localRefresh]
    rw [Store.get_upsert, if_neg hne1, get_deleteMissing,
      if_pos (List.any_eq_true.mpr ⟨X.path, hmemms, hhit⟩)]
  · rintro c hc hcpar ⟨e, he, hedir, hcpath⟩
    have hcin : c ∈ storedChildren store d0.path :=
      mem_storedChildren.mpr ⟨hc, hcpar⟩
    have hcnotleft := hNN.2.2.2 c hcin e he hedir hcpath
    have hcbase : c.path ≠ d0.path :=
      pathUnder_ne_base (Or.inl hcpath)
    have hne2 : ({ (refreshEntries d0.path d0.depth es d0.clear
        (storedChildren store d0.path) store clock).2.1 with
        last_updated := (refreshEntries d0.path d0.depth es d0.clear
          (storedChildren store d0.path) store clock).2.2.2 }).path
        ≠ c.path :=
      fun hh => hcbase (hh.symm.trans hcond)
    simp only [localRefresh]
    rw [Store.get_upsert, if_neg hne2,
      get_deleteMissing, if_neg ?hnone, hNN.1]
    · exact Store.get_of_mem hc hnd
    case hnone =>
      intro hany
      rcases List.any_eq_true.mp hany with ⟨m, hm, hmhit⟩
      rcases List.mem_map.mp ((mem_sortStrings _).mp hm)
        with ⟨z, hzleft, hzm⟩
      have hzin := hNN.2.1 z hzleft
      have hzstore := mem_storedChildren.mp hzin
      rcases hshape z hzstore.1 hzstore.2 with ⟨m', hm'plain, hzpath⟩
      have hzq : z.path ≠ c.path := by
        intro hzc
        exact hcnotleft ((path_inj hnd hzstore.1 hc hzc) ▸ hzleft)
      have hplz : plainStr z.path = true := by
        rw [hzpath]
        exact plainStr_append hbase (isPlainName_plainStr hm'plain)
      rw [← hzm] at hmhit
      have hpu := (treeHit_iff c.path hplz).mp hmhit
      rw [hzpath] at hpu
      have hm'e : m' ≠ e.1 := by
        intro hh
        apply hzq
        rw [hzpath, hcpath, hh]
      exact pathUnder_disjoint (isPlainName_isName hm'plain)
        (isPlainName_isName (plainList_name hes e he)) hm'e hpu
        (Or.inl hcpath)
  · intro fnX hold
    have hagg := localRefresh_agg store d0 (some es) clock
    rw [hold, hagg]
    simp only [Agg.comb]
    refine ⟨?_, ?_, ?_, ?_, ?_, ?_, ?_, ?_⟩ <;> omega

/-- C5 witness data: the spec's concrete scenario.  `/r` contains file
`a` (4096 bytes, 8 blocks) after subdirectory `s` (whose persisted
record carried 1 file, 8192 bytes, 16 blocks) was removed. -/
def esW : List (String × FNode) := [("a", FNode.file statA)]

def stSW : Stat :=
  { atime := 20, ctime := 21, mtime := 22, size := 0, blocks := 0,
    nlink := 1 }

def fnXW : FNode := FNode.dir stSW none

def XW : Directory :=
  { Directory.init "/r/s" (some "/r") (some 2) with
    max_atime := 25, max_ctime := 26, max_mtime := 27,
    num_blocks := 16, num_bytes := 8192, num_files := 1 }

def RW : Directory :=
  { Directory.init "/r" none (some 1) with
    max_atime := 25, max_ctime := 26, max_mtime := 27,
    num_blocks := 24, num_bytes := 12288, num_files := 2, num_dirs := 1 }

theorem claim_C5_deletion_witness :
    Store.get (localRefresh [RW, XW] RW (some esW) 200).1 "/r/s" = none
    ∧ Store.get (localRefresh [RW, XW] RW (some esW) 200).1 "/r/s/t" = none
    ∧ (aggOf RW).num_bytes
        = (aggOf (localRefresh [RW, XW] RW (some esW) 200).2.1).num_bytes
          + (entryAgg fnXW).num_bytes + (aggOf XW).num_bytes
    ∧ (aggOf RW).num_blocks
        = (aggOf (localRefresh [RW, XW] RW (some esW) 200).2.1).num_blocks
          + (entryAgg fnXW).num_blocks + (aggOf XW).num_blocks := by
  have main := claim_C5_deletion_on_immediate_parent [RW, XW] RW esW 200
    XW "s" (by decide) (by decide) (by decide)
    (by
      intro c hc hpar
      rcases List.mem_cons.mp hc with rfl | hc'
      · exact absurd hpar (by decide)
      · rcases List.mem_cons.mp hc' with rfl | hc''
        · exact ⟨"s", by decide, by decide⟩
        · cases hc'')
    (by decide) (by decide) (by decide) (by decide) (by decide) (by decide)
  have hiii := main.2.2 fnXW (by decide)
  exact ⟨main.1 "/r/s" (Or.inl (by decide)),
    main.1 "/r/s/t" (Or.inr ⟨['t'], by decide⟩),
    hiii.2.1, hiii.1⟩

/-! ## C3: the transactional behaviour of one reconciliation step

A model of the SQLAlchemy session as used by `local_hybrid_refresh`:
mutations are staged (`add_all`, `session.delete`, the bulk delete of
`delete_tree`, `merge`) and become durable at `commit()`; a failing
commit is rolled back (pending mutations discarded, committed rows
unchanged) and the error is re-raised.  A fault schedule
`fault : Nat → Option String` makes the n-th commit of the step raise
the given error message. -/

/-- A staged mutation. -/
inductive TxOp where
  | addAll (batch : List Directory)
  | del (path : String)
  | bulkDeleteTree (top : String)
  | mergeD (d : Directory)
deriving DecidableEq, Repr

/-- Apply one staged mutation to the committed rows. -/
def TxOp.apply (s : Store) : TxOp → Store
  | .addAll batch => batch.foldl Store.upsert s
  | .del p => s.filter (fun c => !(c.path == p))
  | .bulkDeleteTree top => deleteTree s top
  | .mergeD d => s.upsert d

def applyOps (s : Store) (ops : List TxOp) : Store :=
  ops.foldl TxOp.apply s

/-- The session: durable rows plus staged, uncommitted mutations. -/
structure Session where
  committed : Store
  pending : List TxOp
deriving DecidableEq, Repr

/-- `commit()` under the fault schedule: either every pending mutation
becomes durable, or (`fault cnt = some msg`) the transaction is rolled
back — pending discarded, committed rows untouched — and the error is
re-raised with its message unmodified. -/
def commitT (fault : Nat → Option String) (ss : Session) (cnt : Nat) :
    Except (String × Store) (Session × Nat) :=
  match fault cnt with
  | some msg => .error (msg, ss.committed)
  | none =>
      .ok ({ committed := applyOps ss.committed ss.pending, pending := [] },
        cnt + 1)

/-- `list(islice(gen, k))` batching: split a list into chunks of `k`
(the last may be shorter).  Fuel-driven so that it evaluates. -/
def chunksOfGo (k : Nat) : Nat → List Directory → List (List Directory)
  | _, [] => []
  | 0, l => [l]
  | fuel + 1, l => l.take k :: chunksOfGo k fuel (l.drop k)

def chunksOf (k : Nat) (l : List Directory) : List (List Directory) :=
  chunksOfGo k l.length l

/-- The batch loop of `add_directory`: `add_all(batch)` + `commit()`
per batch, in generation order. -/
def addBatchesT (fault : Nat → Option String) :
    List (List Directory) → Session → Nat →
    Except (String × Store) (Session × Nat)
  | [], ss, cnt => .ok (ss, cnt)
  | chunk :: rest, ss, cnt =>
      match commitT fault
        { ss with pending := ss.pending ++ [TxOp.addAll chunk] } cnt with
      | .error e => .error e
      | .ok (ss1, cnt1) => addBatchesT fault rest ss1 cnt1

/-- `add_directory` in the transactional model: `delete_tree` (bulk
delete + commit), then the scan's output persisted in batches.  On any
failure the session is rolled back and the error re-raised (`raise e`). -/
def addDirectoryT (fault : Nat → Option String) (batchSize : Nat)
    (ss : Session) (cont : Option (List (String × FNode))) (path : String)
    (parent : Option String) (depth : Nat) (clock : Int) (cnt : Nat) :
    Except (String × Store) (Session × Directory × Int × Nat) :=
  match commitT fault
    { ss with pending := ss.pending ++ [TxOp.bulkDeleteTree path] } cnt with
  | .error e => .error e
  | .ok (ss1, cnt1) =>
      let r := scan path parent depth clock cont
      match addBatchesT fault (chunksOf batchSize r.1) ss1 cnt1 with
      | .error e => .error e
      | .ok (ss2, cnt2) => .ok (ss2, r.2.1, r.2.2, cnt2)

/-- The entry loop of `local_hybrid_refresh` in the transactional
model. -/
def refreshEntriesT (fault : Nat → Option String) (batchSize : Nat)
    (base : String) (depth : Nat) :
    List (String × FNode) → Directory → List Directory → Session → Int →
    Nat →
    Except (String × Store)
      (Session × Directory × List Directory × Int × Nat)
  | [], d, index, ss, clock, cnt => .ok (ss, d, index, clock, cnt)
  | (name, fn) :: rest, d, index, ss, clock, cnt =>
      let d1 := addDirEntry d fn
      match fn with
      | .dir _ sub =>
          match popPath index (base ++ "/" ++ name) with
          | (some c, index') =>
              refreshEntriesT fault batchSize base depth rest
                (addChildDirectory d1 c) index' ss clock cnt
          | (none, index') =>
              match addDirectoryT fault batchSize ss sub
                (base ++ "/" ++ name) (some base) (depth + 1) clock cnt with
              | .error e => .error e
              | .ok (ss1, child, clock1, cnt1) =>
                  refreshEntriesT fault batchSize base depth rest
                    (addChildDirectory d1 child) index' ss1 clock1 cnt1
      | _ => refreshEntriesT fault batchSize base depth rest d1 index ss
          clock cnt

/-- The vanished-children loop: `session.delete(record)` staged, then
`delete_tree(path)` (bulk delete + commit — the commit also flushes the
staged single-row delete). -/
def deleteMissingT (fault : Nat → Option String) :
    List String → Session → Nat →
    Except (String × Store) (Session × Nat)
  | [], ss, cnt => .ok (ss, cnt)
  | p :: rest, ss, cnt =>
      match commitT fault
        { ss with pending := ss.pending
            ++ [TxOp.del p, TxOp.bulkDeleteTree p] } cnt with
      | .error e => .error e
      | .ok (ss1, cnt1) => deleteMissingT fault rest ss1 cnt1

/-- One `local_hybrid_refresh` step in the transactional model. -/
def localRefreshT (fault : Nat → Option String) (batchSize : Nat)
    (ss : Session) (d0 : Directory)
    (cont : Option (List (String × FNode))) (clock : Int) (cnt : Nat) :
    Except (String × Store) (Session × Directory × Int × Nat) :=
  let index0 := storedChildren ss.committed d0.path
  let d1 := d0.clear
  match cont with
  | none =>
      let d2 := { d1 with num_exceptions := d1.num_exceptions + 1 }
      match deleteMissingT fault
        (sortStrings (index0.map (·.path))) ss cnt with
      | .error e => .error e
      | .ok (ss1, cnt1) =>
          let d3 := { d2 with last_updated := clock }
          match commitT fault
            { ss1 with pending := ss1.pending ++ [TxOp.mergeD d3] }
            cnt1 with
          | .error e => .error e
          | .ok (ss2, cnt2) => .ok (ss2, d3, clock + 1, cnt2)
  | some es =>
      match refreshEntriesT fault batchSize d0.path d0.depth es d1 index0
        ss clock cnt with
      | .error e => .error e
      | .ok (ss1, d2, leftover, clock1, cnt1) =>
          match deleteMissingT fault
            (sortStrings (leftover.map (·.path))) ss1 cnt1 with
          | .error e => .error e
          | .ok (ss2, cnt2) =>
              let d3 := { d2 with last_updated := clock1 }
              match commitT fault
                { ss2 with pending := ss2.pending ++ [TxOp.mergeD d3] }
                cnt2 with
              | .error e => .error e
              | .ok (ss3, cnt3) => .ok (ss3, d3, clock1 + 1, cnt3)

theorem chunksOfGo_join (k : Nat) (hk : 1 ≤ k) :
    ∀ (fuel : Nat) (l : List Directory), l.length ≤ fuel →
      (chunksOfGo k fuel l).flatten = l := by
  intro fuel
  induction fuel with
  | zero =>
      intro l hl
      cases l with
      | nil => rfl
      | cons x xs => simp at hl
  | succ fuel ih =>
      intro l hl
      cases l with
      | nil => rfl
      | cons x xs =>
          simp only [chunksOfGo, List.flatten_cons]
          rw [ih ((x :: xs).drop k) (by
            simp only [List.length_drop, List.length_cons] at *
            omega)]
          exact List.take_append_drop k (x :: xs)

theorem chunksOf_join {k : Nat} (hk : 1 ≤ k) (l : List Directory) :
    (chunksOf k l).flatten = l :=
  chunksOfGo_join k hk l.length l (Nat.le_refl _)

theorem addBatchesT_none (chunks : List (List Directory)) (s : Store)
    (cnt : Nat) :
    ∃ k, addBatchesT (fun _ => none) chunks ⟨s, []⟩ cnt
      = .ok (⟨(chunks.flatten).foldl Store.upsert s, []⟩, k) := by
  induction chunks generalizing s cnt with
  | nil => exact ⟨cnt, rfl⟩
  | cons c rest ih =>
      rcases ih (c.foldl Store.upsert s) (cnt + 1) with ⟨k, hk⟩
      refine ⟨k, ?_⟩
      simp only [addBatchesT, commitT, applyOps, List.nil_append,
        List.foldl_cons, List.foldl_nil, TxOp.apply]
      rw [hk]
      simp [List.foldl_append]

theorem addDirectoryT_none {bs : Nat} (hbs : 1 ≤ bs) (s : Store)
    (cont : Option (List (String × FNode))) (path : String)
    (parent : Option String) (depth : Nat) (clock : Int) (cnt : Nat) :
    ∃ k, addDirectoryT (fun _ => none) bs ⟨s, []⟩ cont path parent depth
        clock cnt
      = .ok (⟨(addDirectory s cont path parent depth clock).1, []⟩,
          (addDirectory s cont path parent depth clock).2.1,
          (addDirectory s cont path parent depth clock).2.2, k) := by
  rcases addBatchesT_none
      (chunksOf bs (scan path parent depth clock cont).1)
      (deleteTree s path) (cnt + 1) with ⟨k, hk⟩
  refine ⟨k, ?_⟩
  simp only [addDirectoryT, commitT, applyOps, List.nil_append,
    List.foldl_cons, List.foldl_nil, TxOp.apply]
  rw [hk, chunksOf_join hbs]
  rfl

theorem refreshEntriesT_none {bs : Nat} (hbs : 1 ≤ bs) (base : String)
    (depth : Nat) (es : List (String × FNode)) (d : Directory)
    (index : List Directory) (s : Store) (clock : Int) (cnt : Nat) :
    ∃ k, refreshEntriesT (fun _ => none) bs base depth es d index ⟨s, []⟩
        clock cnt
      = .ok (⟨(refreshEntries base depth es d index s clock).1, []⟩,
          (refreshEntries base depth es d index s clock).2.1,
          (refreshEntries base depth es d index s clock).2.2.1,
          (refreshEntries base depth es d index s clock).2.2.2, k) := by
  induction es generalizing d index s clock cnt with
  | nil => exact ⟨cnt, rfl⟩
  | cons e rest ih =>
      obtain ⟨name, fn⟩ := e
      cases fn with
      | dir st sub =>
          rcases hp : popPath index (base ++ "/" ++ name) with ⟨c?, index'⟩
          cases c? with
          | some c =>
              rcases ih (addChildDirectory (addDirEntry d (FNode.dir st sub))
                c) index' s clock cnt with ⟨k, hk⟩
              refine ⟨k, ?_⟩
              simp only [refreshEntriesT, refreshEntries, hp]
              exact hk
          | none =>
              rcases addDirectoryT_none hbs s sub (base ++ "/" ++ name)
                (some base) (depth + 1) clock cnt with ⟨k1, hk1⟩
              rcases ih (addChildDirectory (addDirEntry d (FNode.dir st sub))
                  (addDirectory s sub (base ++ "/" ++ name) (some base)
                    (depth + 1) clock).2.1)
                index'
                (addDirectory s sub (base ++ "/" ++ name) (some base)
                  (depth + 1) clock).1
                (addDirectory s sub (base ++ "/" ++ name) (some base)
                  (depth + 1) clock).2.2 k1 with ⟨k, hk⟩
              refine ⟨k, ?_⟩
              simp only [refreshEntriesT, refreshEntries, hp]
              rw [hk1]
              exact hk
      | file st =>
          rcases ih (addDirEntry d (FNode.file st)) index s clock cnt
            with ⟨k, hk⟩
          exact ⟨k, by simp only [refreshEntriesT, refreshEntries]; exact hk⟩
      | symlink st =>
          rcases ih (addDirEntry d (FNode.symlink st)) index s clock cnt
            with ⟨k, hk⟩
          exact ⟨k, by simp only [refreshEntriesT, refreshEntries]; exact hk⟩
      | special st =>
          rcases ih (addDirEntry d (FNode.special st)) index s clock cnt
            with ⟨k, hk⟩
          exact ⟨k, by simp only [refreshEntriesT, refreshEntries]; exact hk⟩

theorem deleteMissingT_none (ms : List String) (s : Store) (cnt : Nat) :
    ∃ k, deleteMissingT (fun _ => none) ms ⟨s, []⟩ cnt
      = .ok (⟨deleteMissing s ms, []⟩, k) := by
  induction ms generalizing s cnt with
  | nil => exact ⟨cnt, rfl⟩
  | cons p rest ih =>
      rcases ih (deleteTree (s.filter (fun c => !(c.path == p))) p)
        (cnt + 1) with ⟨k, hk⟩
      refine ⟨k, ?_⟩
      simp only [deleteMissingT, commitT, applyOps, List.nil_append,
        List.foldl_cons, List.foldl_nil, TxOp.apply, deleteMissing]
      exact hk

/-- With no faults, the transactional step computes exactly what the
pure model computes: same final rows, same node, same clock. -/
theorem localRefreshT_none {bs : Nat} (hbs : 1 ≤ bs) (store : Store)
    (d0 : Directory) (cont : Option (List (String × FNode)))
    (clock : Int) (cnt : Nat) :
    ∃ k, localRefreshT (fun _ => none) bs ⟨store, []⟩ d0 cont clock cnt
      = .ok (⟨(localRefresh store d0 cont clock).1, []⟩,
          (localRefresh store d0 cont clock).2.1,
          (localRefresh store d0 cont clock).2.2, k) := by
  cases cont with
  | none =>
      rcases deleteMissingT_none
        (sortStrings ((storedChildren store d0.path).map (·.path)))
        store cnt with ⟨k1, hk1⟩
      refine ⟨k1 + 1, ?_⟩
      simp only [localRefreshT, localRefresh]
      rw [hk1]
      rfl
  | some es =>
      rcases refreshEntriesT_none hbs d0.path d0.depth es d0.clear
        (storedChildren store d0.path) store clock cnt with ⟨k1, hk1⟩
      rcases deleteMissingT_none
        (sortStrings ((refreshEntries d0.path d0.depth es d0.clear
          (storedChildren store d0.path) store clock).2.2.1.map (·.path)))
        (refreshEntries d0.path d0.depth es d0.clear
          (storedChildren store d0.path) store clock).1 k1 with ⟨k2, hk2⟩
      refine ⟨k2 + 1, ?_⟩
      simp only [localRefreshT, localRefresh]
      rw [hk1]
      simp only []
      rw [hk2]
      rfl

theorem commitT_error {fault : Nat → Option String} {ss : Session}
    {cnt : Nat} {msg : String} {s' : Store}
    (h : commitT fault ss cnt = .error (msg, s')) :
    fault cnt = some msg ∧ s' = ss.committed := by
  unfold commitT at h
  cases hf : fault cnt with
  | none => rw [hf] at h; cases h
  | some m =>
      rw [hf] at h
      injection h with h1
      injection h1 with h2 h3
      subst h2
      exact ⟨rfl, h3.symm⟩

theorem addBatchesT_error {fault : Nat → Option String}
    {chunks : List (List Directory)} {ss : Session} {cnt : Nat}
    {msg : String} {s' : Store}
    (h : addBatchesT fault chunks ss cnt = .error (msg, s')) :
    ∃ k, fault k = some msg := by
  induction chunks generalizing ss cnt with
  | nil => cases h
  | cons c rest ih =>
      simp only [addBatchesT] at h
      split at h
      next e heq =>
        obtain ⟨m2, s2⟩ := e
        injection h with h1
        injection h1 with h2 h3
        subst h2
        exact ⟨cnt, (commitT_error heq).1⟩
      next ss1 cnt1 heq =>
        exact ih h

theorem addDirectoryT_error {fault : Nat → Option String} {bs : Nat}
    {ss : Session} {cont : Option (List (String × FNode))} {path : String}
    {parent : Option String} {depth : Nat} {clock : Int} {cnt : Nat}
    {msg : String} {s' : Store}
    (h : addDirectoryT fault bs ss cont path parent depth clock cnt
      = .error (msg, s')) :
    ∃ k, fault k = some msg := by
  simp only [addDirectoryT] at h
  split at h
  next e heq =>
    obtain ⟨m2, s2⟩ := e
    injection h with h1
    injection h1 with h2 h3
    subst h2
    exact ⟨cnt, (commitT_error heq).1⟩
  next ss1 cnt1 heq =>
    split at h
    next e2 heq2 =>
      obtain ⟨m2, s2⟩ := e2
      injection h with h1
      injection h1 with h2 h3
      subst h2
      exact addBatchesT_error heq2
    next ss2 cnt2 heq2 =>
      cases h

theorem refreshEntriesT_error {fault : Nat → Option String} {bs : Nat}
    {base : String} {depth : Nat} {es : List (String × FNode)}
    {d : Directory} {index : List Directory} {ss : Session} {clock : Int}
    {cnt : Nat} {msg : String} {s' : Store}
    (h : refreshEntriesT fault bs base depth es d index ss clock cnt
      = .error (msg, s')) :
    ∃ k, fault k = some msg := by
  induction es generalizing d index ss clock cnt with
  | nil => cases h
  | cons e rest ih =>
      obtain ⟨name, fn⟩ := e
      cases fn with
      | dir st sub =>
          rcases hp : popPath index (base ++ "/" ++ name) with ⟨c?, index'⟩
          cases c? with
          | some c =>
              simp only [refreshEntriesT, hp] at h
              exact ih h
          | none =>
              simp only [refreshEntriesT, hp] at h
              split at h
              next e2 heq =>
                obtain ⟨m2, s2⟩ := e2
                injection h with h1
                injection h1 with h2 h3
                subst h2
                exact addDirectoryT_error heq
              next ss1 child clock1 cnt1 heq =>
                exact ih h
      | file st =>
          simp only [refreshEntriesT] at h
          exact ih h
      | symlink st =>
          simp only [refreshEntriesT] at h
          exact ih h
      | special st =>
          simp only [refreshEntriesT] at h
          exact ih h

theorem deleteMissingT_error {fault : Nat → Option String}
    {ms : List String} {ss : Session} {cnt : Nat} {msg : String}
    {s' : Store}
    (h : deleteMissingT fault ms ss cnt = .error (msg, s')) :
    ∃ k, fault k = some msg := by
  induction ms generalizing ss cnt with
  | nil => cases h
  | cons p rest ih =>
      simp only [deleteMissingT] at h
      split at h
      next e heq =>
        obtain ⟨m2, s2⟩ := e
        injection h with h1
        injection h1 with h2 h3
        subst h2
        exact ⟨cnt, (commitT_error heq).1⟩
      next ss1 cnt1 heq =>
        exact ih h

def PC3 : Directory := Directory.init "/p" none (some 1)

def SC3 : Directory := Directory.init "/p/s" (some "/p") (some 2)

def TC3 : Directory := Directory.init "/p/t" (some "/p") (some 2)

def faultC3 : Nat → Option String :=
  fun k => if k = 1 then some "disk full" else none

deriving instance DecidableEq for Except

theorem localRefreshT_error {fault : Nat → Option String} {bs : Nat}
    {ss : Session} {d0 : Directory}
    {cont : Option (List (String × FNode))} {clock : Int} {cnt : Nat}
    {msg : String} {s' : Store}
    (h : localRefreshT fault bs ss d0 cont clock cnt = .error (msg, s')) :
    ∃ k, fault k = some msg := by
  cases cont with
  | none =>
      simp only [localRefreshT] at h
      split at h
      next e heq =>
        obtain ⟨m2, s2⟩ := e
        injection h with h1
        injection h1 with h2 h3
        subst h2
        exact deleteMissingT_error heq
      next ss1 cnt1 heq =>
        split at h
        next e heq2 =>
          obtain ⟨m2, s2⟩ := e
          injection h with h1
          injection h1 with h2 h3
          subst h2
          exact ⟨cnt1, (commitT_error heq2).1⟩
        next ss2 cnt2 heq2 =>
          cases h
  | some es =>
      simp only [localRefreshT] at h
      split at h
      next e heq =>
        obtain ⟨m2, s2⟩ := e
        injection h with h1
        injection h1 with h2 h3
        subst h2
        exact refreshEntriesT_error heq
      next ss1 d2 leftover clock1 cnt1 heq =>
        split at h
        next e heq2 =>
          obtain ⟨m2, s2⟩ := e
          injection h with h1
          injection h1 with h2 h3
          subst h2
          exact deleteMissingT_error heq2
        next ss2 cnt2 heq2 =>
          split at h
          next e heq3 =>
            obtain ⟨m2, s2⟩ := e
            injection h with h1
            injection h1 with h2 h3
            subst h2
            exact ⟨cnt2, (commitT_error heq3).1⟩
          next ss3 cnt3 heq3 =>
            cases h

/-- Claim C3, counterexample.  One reconciliation step of the node `/p`
whose two stored children `/p/s` and `/p/t` have both vanished issues one
`delete_tree` + `commit` per missing child.  With the second commit
failing ("disk full"), the error is surfaced to the caller, yet the
first commit's effect persists: `/p/s` was in the store before the step
and is gone from the store the error hands back, while `/p`'s own record
was never updated — a partial effect of the step is observable, so the
step as a whole is not atomic. -/
theorem claim_C3_counterexample :
    localRefreshT faultC3 1000 ⟨[PC3, SC3, TC3], []⟩ PC3 (some []) 100 0
        = .error ("disk full", [PC3, TC3])
    ∧ Store.get [PC3, SC3, TC3] "/p/s" = some SC3
    ∧ Store.get [PC3, TC3] "/p/s" = none := by
  decide

/-- Claim C3, amended.  Atomicity holds per commit, not per step: each
individual `commit` either makes all of its staged mutations durable or
(on failure) rolls back exactly its own in-flight mutations and
re-raises the error with its message unmodified.  Formally: (i) under a
fault-free schedule the transactional step commits exactly the rows of
the pure model, with no pending mutations left behind; (ii) whenever the
step surfaces an error, its message is one produced by some failing
commit, unmodified.  (That earlier commits of the same step persist is
the content of the counterexample.) -/
theorem claim_C3_per_commit_atomicity (bs : Nat) (hbs : 1 ≤ bs)
    (store : Store) (d0 : Directory)
    (cont : Option (List (String × FNode))) (clock : Int) (cnt : Nat) :
    (∃ k, localRefreshT (fun _ => none) bs ⟨store, []⟩ d0 cont clock cnt
        = .ok (⟨(localRefresh store d0 cont clock).1, []⟩,
            (localRefresh store d0 cont clock).2.1,
            (localRefresh store d0 cont clock).2.2, k))
    ∧ (∀ fault msg s',
        localRefreshT fault bs ⟨store, []⟩ d0 cont clock cnt
            = .error (msg, s') →
        ∃ k, fault k = some msg) :=
  ⟨localRefreshT_none hbs store d0 cont clock cnt,
    fun _ _ _ h => localRefreshT_error h⟩

/-! ## Refresh on an empty store vs a full scan (C1) -/

/-- The clock-independent view of a record: the location fields,
`max_depth`, and the eleven aggregate fields — everything except the
three bookkeeping timestamps. -/
def viewOf (d : Directory) : String × Option String × Nat × Nat × Agg :=
  (d.path, d.parent, d.depth, d.max_depth, aggOf d)

theorem viewOf_path {d e : Directory} (h : viewOf d = viewOf e) :
    d.path = e.path := congrArg (fun v => v.1) h

theorem viewOf_agg {d e : Directory} (h : viewOf d = viewOf e) :
    aggOf d = aggOf e := congrArg (fun v => v.2.2.2.2) h

theorem viewOf_ext {d e : Directory} (h1 : d.path = e.path)
    (h2 : d.parent = e.parent) (h3 : d.depth = e.depth)
    (h4 : d.max_depth = e.max_depth) (h5 : aggOf d = aggOf e) :
    viewOf d = viewOf e := by
  simp only [viewOf, h1, h2, h3, h4, h5]

theorem viewOf_addDirEntry {d e : Directory} (fn : FNode)
    (h : viewOf d = viewOf e) :
    viewOf (addDirEntry d fn) = viewOf (addDirEntry e fn) := by
  have hd := addDirEntry_meta d fn
  have he := addDirEntry_meta e fn
  have h1 : d.path = e.path := viewOf_path h
  have h2 : d.parent = e.parent := congrArg (fun v => v.2.1) h
  have h3 : d.depth = e.depth := congrArg (fun v => v.2.2.1) h
  have h4 : d.max_depth = e.max_depth := congrArg (fun v => v.2.2.2.1) h
  have h5 : aggOf d = aggOf e := viewOf_agg h
  exact viewOf_ext (by rw [hd.1, he.1, h1]) (by rw [hd.2.1, he.2.1, h2])
    (by rw [hd.2.2.1, he.2.2.1, h3])
    (by rw [hd.2.2.2.1, he.2.2.2.1, h4])
    (by rw [aggOf_addDirEntry, aggOf_addDirEntry, h5])

theorem viewOf_addChildDirectory {d e c c' : Directory}
    (h : viewOf d = viewOf e) (hc : viewOf c = viewOf c') :
    viewOf (addChildDirectory d c) = viewOf (addChildDirectory e c') := by
  have hd := addChildDirectory_meta d c
  have he := addChildDirectory_meta e c'
  have h1 : d.path = e.path := viewOf_path h
  have h2 : d.parent = e.parent := congrArg (fun v => v.2.1) h
  have h3 : d.depth = e.depth := congrArg (fun v => v.2.2.1) h
  have h4 : d.max_depth = e.max_depth := congrArg (fun v => v.2.2.2.1) h
  have h5 : aggOf d = aggOf e := viewOf_agg h
  have hc4 : c.max_depth = c'.max_depth := congrArg (fun v => v.2.2.2.1) hc
  have hc5 : aggOf c = aggOf c' := viewOf_agg hc
  refine viewOf_ext (by rw [hd.1, he.1, h1]) (by rw [hd.2.1, he.2.1, h2])
    (by rw [hd.2.2.1, he.2.2.1, h3]) ?_ ?_
  · show max d.max_depth c.max_depth = max e.max_depth c'.max_depth
    rw [h4, hc4]
  · rw [aggOf_addChildDirectory, aggOf_addChildDirectory, h5, hc5]

theorem viewOf_finish (d : Directory) (t : Int) :
    viewOf { d with scan_finished := t, last_updated := t } = viewOf d := rfl

theorem viewOf_setLastUpdated (d : Directory) (t : Int) :
    viewOf { d with last_updated := t } = viewOf d := rfl

mutual

/-- The clock affects only the bookkeeping timestamps of what `scan`
produces: the `viewOf` projections of the emitted sequence and of the
resulting node are clock-independent. -/
theorem scanF_view (path : String) (parent : Option String) (depth : Nat)
    (c1 c2 : Int) (fn : FNode) :
    ((scanF path parent depth c1 fn).1).map viewOf
        = ((scanF path parent depth c2 fn).1).map viewOf
    ∧ viewOf (scanF path parent depth c1 fn).2.1
        = viewOf (scanF path parent depth c2 fn).2.1 := by
  cases fn with
  | dir st sub =>
      cases sub with
      | none => exact ⟨rfl, rfl⟩
      | some es =>
          have hE := scanEntries_view path depth es
            (scanStart path parent depth c1)
            (scanStart path parent depth c2) (c1 + 1) (c2 + 1) rfl
          simp only [scanF, scanFinish, List.map_append, List.map_cons,
            List.map_nil]
          rw [viewOf_finish, viewOf_finish]
          exact ⟨by rw [hE.1, hE.2], hE.2⟩
  | file st => exact ⟨rfl, rfl⟩
  | symlink st => exact ⟨rfl, rfl⟩
  | special st => exact ⟨rfl, rfl⟩

theorem scanEntries_view (base : String) (depth : Nat)
    (es : List (String × FNode)) (d1 d2 : Directory) (c1 c2 : Int)
    (hd : viewOf d1 = viewOf d2) :
    ((scanEntries base depth es d1 c1).1).map viewOf
        = ((scanEntries base depth es d2 c2).1).map viewOf
    ∧ viewOf (scanEntries base depth es d1 c1).2.1
        = viewOf (scanEntries base depth es d2 c2).2.1 := by
  match es with
  | [] => exact ⟨rfl, hd⟩
  | (n, fn) :: rest =>
      cases fn with
      | dir st sub =>
          have hB := scanF_view (base ++ "/" ++ n) (some base) (depth + 1)
            c1 c2 (FNode.dir st sub)
          have hR := scanEntries_view base depth rest
            (addChildDirectory (addDirEntry d1 (FNode.dir st sub))
              (scanF (base ++ "/" ++ n) (some base) (depth + 1) c1
                (FNode.dir st sub)).2.1)
            (addChildDirectory (addDirEntry d2 (FNode.dir st sub))
              (scanF (base ++ "/" ++ n) (some base) (depth + 1) c2
                (FNode.dir st sub)).2.1)
            (scanF (base ++ "/" ++ n) (some base) (depth + 1) c1
              (FNode.dir st sub)).2.2
            (scanF (base ++ "/" ++ n) (some base) (depth + 1) c2
              (FNode.dir st sub)).2.2
            (viewOf_addChildDirectory (viewOf_addDirEntry _ hd) hB.2)
          simp only [scanEntries, List.map_append]
          exact ⟨by rw [hB.1, hR.1], hR.2⟩
      | file st =>
          exact scanEntries_view base depth rest _ _ c1 c2
            (viewOf_addDirEntry _ hd)
      | symlink st =>
          exact scanEntries_view base depth rest _ _ c1 c2
            (viewOf_addDirEntry _ hd)
      | special st =>
          exact scanEntries_view base depth rest _ _ c1 c2
            (viewOf_addDirEntry _ hd)
end

theorem scan_eq_scanF (st : Stat) (path : String) (parent : Option String)
    (depth : Nat) (clock : Int)
    (sub : Option (List (String × FNode))) :
    scan path parent depth clock sub
      = scanF path parent depth clock (FNode.dir st sub) := by
  cases sub <;> rfl

mutual

/-- Under well-formed listings, the paths of the nodes a scan emits are
pairwise distinct. -/
theorem scanF_nodupPaths (path : String) (parent : Option String)
    (depth : Nat) (clock : Int) (fn : FNode) (h : wfF fn = true) :
    ((scanF path parent depth clock fn).1).Pairwise
      (fun a b => a.path ≠ b.path) := by
  cases fn with
  | dir st sub =>
      cases sub with
      | none => exact List.pairwise_singleton _ _
      | some es =>
          have hes : wfList es = true := h
          have hE := scanEntries_nodupPaths path depth es
            (scanStart path parent depth clock) (clock + 1) hes
          have hmem := (scanEntries_post path depth es
            (scanStart path parent depth clock) (clock + 1) hes).1
          have hbp : (scanEntries path depth es
              (scanStart path parent depth clock) (clock + 1)).2.1.path
              = path :=
            (scanEntries_meta path depth es
              (scanStart path parent depth clock) (clock + 1)).1
          simp only [scanF, scanFinish]
          rw [List.pairwise_append]
          refine ⟨hE, List.pairwise_singleton _ _, ?_⟩
          intro a ha b hb
          rcases List.mem_singleton.mp hb with rfl
          rcases hmem a ha with ⟨n, fn', _, _, hu⟩
          intro heq
          exact pathUnder_ne_base hu (heq.trans hbp)
  | file st => exact List.pairwise_singleton _ _
  | symlink st => exact List.pairwise_singleton _ _
  | special st => exact List.pairwise_singleton _ _

theorem scanEntries_nodupPaths (base : String) (depth : Nat)
    (es : List (String × FNode)) (d : Directory) (clock : Int)
    (h : wfList es = true) :
    ((scanEntries base depth es d clock).1).Pairwise
      (fun a b => a.path ≠ b.path) := by
  match es with
  | [] => exact List.Pairwise.nil
  | (n, fn) :: rest =>
      simp only [wfList, Bool.and_eq_true, Bool.not_eq_true'] at h
      obtain ⟨⟨⟨hn, hfn⟩, hnodup⟩, hrest⟩ := h
      have hnot : ∀ e ∈ rest, ¬ (e.1 = n) := by
        intro e he hee
        have := List.any_eq_false.mp hnodup e he
        simp [hee] at this
      cases fn with
      | dir st sub =>
          have hB := scanF_nodupPaths (base ++ "/" ++ n) (some base)
            (depth + 1) clock (FNode.dir st sub) hfn
          have hBmem := (scanF_post (base ++ "/" ++ n) (some base)
            (depth + 1) clock (FNode.dir st sub) hfn).2.2.1
          have hR := scanEntries_nodupPaths base depth rest
            (addChildDirectory (addDirEntry d (FNode.dir st sub))
              (scanF (base ++ "/" ++ n) (some base) (depth + 1) clock
                (FNode.dir st sub)).2.1)
            (scanF (base ++ "/" ++ n) (some base) (depth + 1) clock
              (FNode.dir st sub)).2.2 hrest
          have hRmem := (scanEntries_post base depth rest
            (addChildDirectory (addDirEntry d (FNode.dir st sub))
              (scanF (base ++ "/" ++ n) (some base) (depth + 1) clock
                (FNode.dir st sub)).2.1)
            (scanF (base ++ "/" ++ n) (some base) (depth + 1) clock
              (FNode.dir st sub)).2.2 hrest).1
          simp only [scanEntries]
          rw [List.pairwise_append]
          refine ⟨hB, hR, ?_⟩
          intro a ha b hb
          rcases hRmem b hb with ⟨m, fm, hm, hmn, hu⟩
          intro heq
          exact pathUnder_disjoint hn hmn
            (fun hnm => hnot (m, fm) hm hnm.symm)
            (heq ▸ hBmem a ha) hu
      | file st =>
          exact scanEntries_nodupPaths base depth rest
            (addDirEntry d (FNode.file st)) clock hrest
      | symlink st =>
          exact scanEntries_nodupPaths base depth rest
            (addDirEntry d (FNode.symlink st)) clock hrest
      | special st =>
          exact scanEntries_nodupPaths base depth rest
            (addDirEntry d (FNode.special st)) clock hrest
end

theorem upsert_append_of_not_mem (S : Store) (x : Directory)
    (h : ∀ y ∈ S, y.path ≠ x.path) : Store.upsert S x = S ++ [x] := by
  unfold Store.upsert
  rw [if_neg]
  simp only [List.any_eq_true, not_exists, beq_iff_eq, not_and]
  intro y hy
  exact h y hy

/-- Upserting a path-nodup batch whose paths are all new is plain
concatenation. -/
theorem foldl_upsert_append (L : List Directory) :
    ∀ (S : Store), L.Pairwise (fun a b => a.path ≠ b.path) →
      (∀ x ∈ L, ∀ y ∈ S, y.path ≠ x.path) →
      L.foldl Store.upsert S = S ++ L := by
  induction L with
  | nil => intro S _ _; simp
  | cons x L ih =>
      intro S hnd hcross
      simp only [List.foldl_cons]
      rw [upsert_append_of_not_mem S x
        (fun y hy => hcross x (List.mem_cons_self x L) y hy)]
      rw [ih (S ++ [x]) (List.Pairwise.sublist (List.sublist_cons_self x L) hnd) ?_]
      · simp
      · intro z hz y hy
        rcases List.mem_append.mp hy with hy | hy
        · exact hcross z (List.mem_cons_of_mem _ hz) y hy
        · rcases List.mem_singleton.mp hy with rfl
          exact (List.pairwise_cons.mp hnd).1 z hz

/-- Two stores with the same `viewOf` sequence agree, record by record,
on every aggregate lookup. -/
theorem get_view_congr (S1 : Store) :
    ∀ (S2 : Store), S1.map viewOf = S2.map viewOf →
    ∀ q, Option.map aggOf (Store.get S1 q)
      = Option.map aggOf (Store.get S2 q) := by
  induction S1 with
  | nil =>
      intro S2 h q
      cases S2 with
      | nil => rfl
      | cons c t => cases h
  | cons a S1 ih =>
      intro S2 h q
      cases S2 with
      | nil => cases h
      | cons b S2 =>
          simp only [List.map_cons] at h
          injection h with h1 h2
          unfold Store.get
          by_cases hq : a.path = q
          · have hb : b.path = q := (viewOf_path h1) ▸ hq
            rw [List.find?_cons_of_pos _ (by simpa using hq),
              List.find?_cons_of_pos _ (by simpa using hb)]
            simp [viewOf_agg h1]
          · have hb : ¬ b.path = q := fun hh =>
              hq ((viewOf_path h1).trans hh)
            rw [List.find?_cons_of_neg _ (by simpa using hq),
              List.find?_cons_of_neg _ (by simpa using hb)]
            exact ih S2 h2 q

theorem deleteTree_noop {S : Store} {t : String}
    (h : ∀ x ∈ S, treeHit t x.path = false) : deleteTree S t = S :=
  List.filter_eq_self.mpr (fun x hx => by simp [h x hx])

/-- The crux of C1: reconciling a node against an *empty* stored-children
index over a wildcard-free listing parallels the scan loop exactly —
every child is new, so it is scanned and its records appended (each
insertion's guarding `delete_tree` deletes nothing because sibling
subtrees are path-disjoint and the patterns carry no wildcards), and the
accumulating node tracks the scan's accumulating node up to
timestamps. -/
theorem refreshEmpty_parallel (base : String) (hbase : plainStr base = true)
    (depth : Nat) (es : List (String × FNode)) :
    plainList es = true →
    ∀ (d dS : Directory), viewOf d = viewOf dS →
    ∀ (S : Store) (clock cS : Int),
    (∀ x ∈ S, ∃ m, isName m = true
        ∧ es.any (fun e => e.1 == m) = false
        ∧ pathUnder (base ++ "/" ++ m) x.path) →
    ((refreshEntries base depth es d [] S clock).1.map viewOf
        = S.map viewOf ++ ((scanEntries base depth es dS cS).1).map viewOf)
    ∧ viewOf (refreshEntries base depth es d [] S clock).2.1
        = viewOf (scanEntries base depth es dS cS).2.1
    ∧ (refreshEntries base depth es d [] S clock).2.2.1 = [] := by
  induction es with
  | nil =>
      intro _ d dS hd S clock cS hS
      exact ⟨by simp [refreshEntries, scanEntries], hd, rfl⟩
  | cons e rest ih =>
      intro hpl d dS hd S clock cS hS
      obtain ⟨n, fn⟩ := e
      simp only [plainList, Bool.and_eq_true, Bool.not_eq_true'] at hpl
      obtain ⟨⟨⟨hn, hfn⟩, hnodup⟩, hrest⟩ := hpl
      have hisn : isName n = true := isPlainName_isName hn
      have hplname : plainStr n = true := isPlainName_plainStr hn
      cases fn with
      | dir st sub =>
          have hcplain : plainStr (base ++ "/" ++ n) = true :=
            plainStr_append hbase hplname
          have hwf : wfF (FNode.dir st sub) = true := plainF_wf _ hfn
          have hmemB := (scanF_post (base ++ "/" ++ n) (some base)
            (depth + 1) clock (FNode.dir st sub) hwf).2.2.1
          have hndB := scanF_nodupPaths (base ++ "/" ++ n) (some base)
            (depth + 1) clock (FNode.dir st sub) hwf
          have hdel : deleteTree S (base ++ "/" ++ n) = S := by
            apply deleteTree_noop
            intro x hx
            rcases hS x hx with ⟨m, hm, hmany, hu⟩
            rw [List.any_cons, Bool.or_eq_false_iff] at hmany
            have hmn : n ≠ m := fun hh => by
              have := hmany.1
              rw [hh] at this
              simp at this
            by_contra hht
            have hht' : treeHit (base ++ "/" ++ n) x.path = true := by
              simpa using hht
            exact pathUnder_disjoint hisn hm hmn
              ((treeHit_iff x.path hcplain).mp hht') hu
          have hfold : ((scan (base ++ "/" ++ n) (some base) (depth + 1)
              clock sub).1).foldl Store.upsert S
              = S ++ (scan (base ++ "/" ++ n) (some base) (depth + 1)
                  clock sub).1 := by
            rw [scan_eq_scanF st]
            apply foldl_upsert_append _ S hndB
            intro x hx y hy
            rcases hS y hy with ⟨m, hm, hmany, hu⟩
            rw [List.any_cons, Bool.or_eq_false_iff] at hmany
            have hmn : n ≠ m := fun hh => by
              have := hmany.1
              rw [hh] at this
              simp at this
            intro heq
            exact pathUnder_disjoint hm hisn (Ne.symm hmn) (heq ▸ hu)
              (hmemB x hx)
          have hadd1 : (addDirectory S sub (base ++ "/" ++ n) (some base)
              (depth + 1) clock).1
              = S ++ (scan (base ++ "/" ++ n) (some base) (depth + 1)
                  clock sub).1 := by
            simp only [addDirectory]
            rw [hdel, hfold]
          have hadd2 : (addDirectory S sub (base ++ "/" ++ n) (some base)
              (depth + 1) clock).2.1
              = (scan (base ++ "/" ++ n) (some base) (depth + 1) clock
                  sub).2.1 := rfl
          have hadd3 : (addDirectory S sub (base ++ "/" ++ n) (some base)
              (depth + 1) clock).2.2
              = (scan (base ++ "/" ++ n) (some base) (depth + 1) clock
                  sub).2.2 := rfl
          have hview : viewOf (addChildDirectory
              (addDirEntry d (FNode.dir st sub))
              (scan (base ++ "/" ++ n) (some base) (depth + 1) clock
                sub).2.1)
              = viewOf (addChildDirectory
                (addDirEntry dS (FNode.dir st sub))
                (scanF (base ++ "/" ++ n) (some base) (depth + 1) cS
                  (FNode.dir st sub)).2.1) := by
            refine viewOf_addChildDirectory (viewOf_addDirEntry _ hd) ?_
            rw [scan_eq_scanF st]
            exact (scanF_view (base ++ "/" ++ n) (some base) (depth + 1)
              clock cS (FNode.dir st sub)).2
          have hinv : ∀ x ∈ S ++ (scan (base ++ "/" ++ n) (some base)
              (depth + 1) clock sub).1, ∃ m, isName m = true
              ∧ rest.any (fun e => e.1 == m) = false
              ∧ pathUnder (base ++ "/" ++ m) x.path := by
            intro x hx
            rcases List.mem_append.mp hx with hx | hx
            · rcases hS x hx with ⟨m, hm, hmany, hu⟩
              rw [List.any_cons, Bool.or_eq_false_iff] at hmany
              exact ⟨m, hm, hmany.2, hu⟩
            · refine ⟨n, hisn, hnodup, ?_⟩
              rw [scan_eq_scanF st] at hx
              exact hmemB x hx
          have hR := ih hrest
            (addChildDirectory (addDirEntry d (FNode.dir st sub))
              (scan (base ++ "/" ++ n) (some base) (depth + 1) clock
                sub).2.1)
            (addChildDirectory (addDirEntry dS (FNode.dir st sub))
              (scanF (base ++ "/" ++ n) (some base) (depth + 1) cS
                (FNode.dir st sub)).2.1)
            hview
            (S ++ (scan (base ++ "/" ++ n) (some base) (depth + 1) clock
              sub).1)
            (scan (base ++ "/" ++ n) (some base) (depth + 1) clock sub).2.2
            (scanF (base ++ "/" ++ n) (some base) (depth + 1) cS
              (FNode.dir st sub)).2.2
            hinv
          have hlv : ((scan (base ++ "/" ++ n) (some base) (depth + 1)
              clock sub).1).map viewOf
              = ((scanF (base ++ "/" ++ n) (some base) (depth + 1) cS
                  (FNode.dir st sub)).1).map viewOf := by
            rw [scan_eq_scanF st]
            exact (scanF_view (base ++ "/" ++ n) (some base) (depth + 1)
              clock cS (FNode.dir st sub)).1
          refine ⟨?_, ?_, ?_⟩
          · show (refreshEntries base depth rest
                (addChildDirectory (addDirEntry d (FNode.dir st sub))
                  (addDirectory S sub (base ++ "/" ++ n) (some base)
                    (depth + 1) clock).2.1) []
                (addDirectory S sub (base ++ "/" ++ n) (some base)
                  (depth + 1) clock).1
                (addDirectory S sub (base ++ "/" ++ n) (some base)
                  (depth + 1) clock).2.2).1.map viewOf
              = S.map viewOf
                ++ (((scanF (base ++ "/" ++ n) (some base) (depth + 1) cS
                      (FNode.dir st sub)).1
                    ++ (scanEntries base depth rest
                        (addChildDirectory
                          (addDirEntry dS (FNode.dir st sub))
                          (scanF (base ++ "/" ++ n) (some base) (depth + 1)
                            cS (FNode.dir st sub)).2.1)
                        (scanF (base ++ "/" ++ n) (some base) (depth + 1)
                          cS (FNode.dir st sub)).2.2).1).map viewOf)
            rw [hadd1, hadd2, hadd3, hR.1]
            simp only [List.map_append, List.append_assoc, hlv]
          · show viewOf (refreshEntries base depth rest
                (addChildDirectory (addDirEntry d (FNode.dir st sub))
                  (addDirectory S sub (base ++ "/" ++ n) (some base)
                    (depth + 1) clock).2.1) []
                (addDirectory S sub (base ++ "/" ++ n) (some base)
                  (depth + 1) clock).1
                (addDirectory S sub (base ++ "/" ++ n) (some base)
                  (depth + 1) clock).2.2).2.1
              = viewOf (scanEntries base depth rest
                  (addChildDirectory (addDirEntry dS (FNode.dir st sub))
                    (scanF (base ++ "/" ++ n) (some base) (depth + 1) cS
                      (FNode.dir st sub)).2.1)
                  (scanF (base ++ "/" ++ n) (some base) (depth + 1) cS
                    (FNode.dir st sub)).2.2).2.1
            rw [hadd1, hadd2, hadd3]
            exact hR.2.1
          · show (refreshEntries base depth rest
                (addChildDirectory (addDirEntry d (FNode.dir st sub))
                  (addDirectory S sub (base ++ "/" ++ n) (some base)
                    (depth + 1) clock).2.1) []
                (addDirectory S sub (base ++ "/" ++ n) (some base)
                  (depth + 1) clock).1
                (addDirectory S sub (base ++ "/" ++ n) (some base)
                  (depth + 1) clock).2.2).2.2.1 = []
            rw [hadd1, hadd2, hadd3]
            exact hR.2.2
      | file st =>
          refine ih hrest (addDirEntry d (FNode.file st))
            (addDirEntry dS (FNode.file st))
            (viewOf_addDirEntry _ hd) S clock cS ?_
          intro x hx
          rcases hS x hx with ⟨m, hm, hmany, hu⟩
          rw [List.any_cons, Bool.or_eq_false_iff] at hmany
          exact ⟨m, hm, hmany.2, hu⟩
      | symlink st =>
          refine ih hrest (addDirEntry d (FNode.symlink st))
            (addDirEntry dS (FNode.symlink st))
            (viewOf_addDirEntry _ hd) S clock cS ?_
          intro x hx
          rcases hS x hx with ⟨m, hm, hmany, hu⟩
          rw [List.any_cons, Bool.or_eq_false_iff] at hmany
          exact ⟨m, hm, hmany.2, hu⟩
      | special st =>
          refine ih hrest (addDirEntry d (FNode.special st))
            (addDirEntry dS (FNode.special st))
            (viewOf_addDirEntry _ hd) S clock cS ?_
          intro x hx
          rcases hS x hx with ⟨m, hm, hmany, hu⟩
          rw [List.any_cons, Bool.or_eq_false_iff] at hmany
          exact ⟨m, hm, hmany.2, hu⟩

theorem map_viewOf_path (l : List Directory) :
    (l.map viewOf).map (fun v => v.1) = l.map Directory.path := by
  induction l with
  | nil => rfl
  | cons a l ih => simp only [List.map_cons, ih]; rfl

/-- On an empty store, `hybrid_refresh` reduces to a single local
reconciliation of the fresh root node: its record is absent, so the
walk starts from `Directory(top_path)` whose parent attribute is
`None`, and `fetch_parent` stops the loop at once. -/
theorem hybridRefresh_empty (fs : String → Option (List (String × FNode)))
    (top : String) (clock : Int) (fuel : Nat) :
    hybridRefresh fs [] top clock (fuel + 1)
      = localRefresh [] (Directory.init top none none) (fs top) clock := by
  have hpar := (localRefresh_meta [] (Directory.init top none none)
    (fs (Directory.init top none none).path) clock).2.1
  show hybridGo fs [] (Directory.init top none none) clock (fuel + 1) = _
  simp only [hybridGo]
  rw [show fetchParent
      (localRefresh [] (Directory.init top none none)
        (fs (Directory.init top none none).path) clock).1
      (localRefresh [] (Directory.init top none none)
        (fs (Directory.init top none none).path) clock).2.1 = none from by
    unfold fetchParent
    rw [hpar]
    rfl]
  rfl

/-- Refreshing a fresh root against an empty store yields, record by
record and up to bookkeeping timestamps, exactly what a full scan at
any clock emits. -/
theorem refreshEmpty_store_view (top : String) (htop : plainStr top = true)
    (cont : Option (List (String × FNode)))
    (hplain : plainCont cont = true) (clock clock' : Int) :
    ((localRefresh [] (Directory.init top none none) cont clock).1).map
        viewOf
      = ((scan top none (pathDepth top) clock' cont).1).map viewOf := by
  cases cont with
  | none => rfl
  | some es =>
      have hP := refreshEmpty_parallel top htop (pathDepth top) es hplain
        (Directory.init top none none).clear
        (scanStart top none (pathDepth top) clock') rfl
        [] clock (clock' + 1)
        (fun x hx => absurd hx (List.not_mem_nil x))
      have hmv : (refreshEntries top (pathDepth top) es
          (Directory.init top none none).clear [] [] clock).1.map viewOf
          = ((scanEntries top (pathDepth top) es
              (scanStart top none (pathDepth top) clock')
              (clock' + 1)).1).map viewOf := by
        simpa using hP.1
      have hrpath : (refreshEntries top (pathDepth top) es
          (Directory.init top none none).clear [] [] clock).2.1.path
          = top :=
        (refreshEntries_meta top (pathDepth top) es
          (Directory.init top none none).clear [] [] clock).1
      have hwfes : wfList es = true := plainList_wf es hplain
      have hEmem := (scanEntries_post top (pathDepth top) es
        (scanStart top none (pathDepth top) clock') (clock' + 1) hwfes).1
      have hpaths : (refreshEntries top (pathDepth top) es
          (Directory.init top none none).clear [] [] clock).1.map
            Directory.path
          = ((scanEntries top (pathDepth top) es
              (scanStart top none (pathDepth top) clock')
              (clock' + 1)).1).map Directory.path := by
        rw [← map_viewOf_path, ← map_viewOf_path, hmv]
      have hne : ∀ y ∈ (refreshEntries top (pathDepth top) es
          (Directory.init top none none).clear [] [] clock).1,
          y.path ≠ top := by
        intro y hy
        have hmem : y.path ∈ ((scanEntries top (pathDepth top) es
            (scanStart top none (pathDepth top) clock')
            (clock' + 1)).1).map Directory.path := by
          rw [← hpaths]
          exact List.mem_map_of_mem Directory.path hy
        rcases List.mem_map.mp hmem with ⟨x, hx, hxy⟩
        rcases hEmem x hx with ⟨n, fn', _, _, hu⟩
        rw [← hxy]
        exact pathUnder_ne_base hu
      have hup : Store.upsert
          (refreshEntries top (pathDepth top) es
            (Directory.init top none none).clear [] [] clock).1
          { (refreshEntries top (pathDepth top) es
              (Directory.init top none none).clear [] [] clock).2.1 with
            last_updated := (refreshEntries top (pathDepth top) es
              (Directory.init top none none).clear [] [] clock).2.2.2 }
          = (refreshEntries top (pathDepth top) es
              (Directory.init top none none).clear [] [] clock).1
            ++ [{ (refreshEntries top (pathDepth top) es
                (Directory.init top none none).clear [] [] clock).2.1 with
              last_updated := (refreshEntries top (pathDepth top) es
                (Directory.init top none none).clear [] [] clock).2.2.2 }] :=
        upsert_append_of_not_mem _ _ (fun y hy => by
          show y.path ≠ (refreshEntries top (pathDepth top) es
            (Directory.init top none none).clear [] [] clock).2.1.path
          rw [hrpath]
          exact hne y hy)
      have hip : (Directory.init top none none).path = top := rfl
      have hid : (Directory.init top none none).depth = pathDepth top := rfl
      simp only [localRefresh, scan, scanFinish, storedChildren,
        List.filter_nil, hip, hid]
      rw [hP.2.2]
      simp only [List.map_nil, sortStrings, deleteMissing]
      rw [hup]
      simp only [List.map_append, List.map_cons, List.map_nil,
        viewOf_finish, viewOf_setLastUpdated, hmv, hP.2.1]

/-- The C1 counterexample tree: the root `/r` contains the sibling
directories `aXb` (holding a subdirectory `s`) and `a_b`. -/
def fsC1 : String → Option (List (String × FNode)) :=
  fun p =>
    if p = "/r" then
      some [("aXb", FNode.dir statA (some [("s", FNode.dir statA (some []))])),
            ("a_b", FNode.dir statA (some []))]
    else none

/-- Claim C1, counterexample.  `_` is an SQL LIKE single-character
wildcard and the source builds the pattern `top + '/%'` unescaped, so
while refreshing `/r` on an empty store, `add_directory("/r/a_b")`
starts with a `delete_tree` whose pattern `/r/a_b/%` also matches the
just-persisted record `/r/aXb/s` of the sibling scanned before it and
deletes it.  A full scan of `/r` emits a node for `/r/aXb/s`, so the two
runs do not produce identical aggregates for every node of the tree:
the refreshed store has no record for that node at all. -/
theorem claim_C1_counterexample :
    Store.get (hybridRefresh fsC1 [] "/r" 100 1).1 "/r/aXb/s" = none
    ∧ (Store.get (((scan "/r" none 1 100 (fsC1 "/r")).1).foldl
          Store.upsert []) "/r/aXb/s").isSome = true := by
  decide

/-- Claim C1, amended.  For a root path and a tree whose directory
names are legal filenames free of the SQL LIKE wildcards `%` and `_`
(so the unescaped `delete_tree` patterns built from them match only
genuine descendants), running `hybrid_refresh` on the root against an
empty store and running a full `Directory.scan` of the root — at any
two clocks — produce records with identical aggregate fields (the three
max times and the eight counters) for every path: one store's record
under a path exists exactly when the other's does, and then their
eleven aggregate fields coincide. -/
theorem claim_C1_refresh_matches_scan_on_empty_store
    (top : String) (htop : plainStr top = true)
    (fs : String → Option (List (String × FNode)))
    (hplain : plainCont (fs top) = true)
    (clock clock' : Int) (fuel : Nat) (q : String) :
    Option.map aggOf
        (Store.get (hybridRefresh fs [] top clock (fuel + 1)).1 q)
      = Option.map aggOf
        (Store.get (((scan top none (pathDepth top) clock' (fs top)).1).foldl
            Store.upsert []) q) := by
  rw [hybridRefresh_empty]
  have hnd : ((scan top none (pathDepth top) clock' (fs top)).1).Pairwise
      (fun a b => a.path ≠ b.path) := by
    cases hc : fs top with
    | none => exact List.pairwise_singleton _ _
    | some es =>
        rw [scan_eq_scanF statA]
        refine scanF_nodupPaths top none (pathDepth top) clock'
          (FNode.dir statA (some es)) ?_
        rw [hc] at hplain
        exact plainF_wf _ hplain
  have hfold : ((scan top none (pathDepth top) clock' (fs top)).1).foldl
      Store.upsert []
      = (scan top none (pathDepth top) clock' (fs top)).1 := by
    have := foldl_upsert_append _ ([] : Store) hnd
      (fun x _ y hy => absurd hy (List.not_mem_nil y))
    simpa using this
  rw [hfold]
  exact get_view_congr _ _
    (refreshEmpty_store_view top htop (fs top) hplain clock clock') q

/-- The C1 witness tree: `/r` holding a subdirectory `a` (itself holding
a subdirectory `s`) and a file `b`. -/
def fsC1W : String → Option (List (String × FNode)) :=
  fun p =>
    if p = "/r" then
      some [("a", FNode.dir statA (some [("s", FNode.dir statA (some []))])),
            ("b", FNode.file statA)]
    else none

/-- Witness for the amended C1 theorem at a concrete input. -/
theorem claim_C1_refresh_matches_scan_witness :
    Option.map aggOf
        (Store.get (hybridRefresh fsC1W [] "/r" 100 (0 + 1)).1 "/r/a/s")
      = Option.map aggOf
        (Store.get (((scan "/r" none (pathDepth "/r") 200
            (fsC1W "/r")).1).foldl Store.upsert []) "/r/a/s") :=
  claim_C1_refresh_matches_scan_on_empty_store "/r" (by decide) fsC1W
    (by decide) 100 200 0 "/r/a/s"

/-! ## Second-refresh stability (C6) -/

theorem scanF_node_meta (p : String) (par : Option String) (dep : Nat)
    (c : Int) (fn : FNode) :
    (scanF p par dep c fn).2.1.path = p
    ∧ (scanF p par dep c fn).2.1.parent = par
    ∧ (scanF p par dep c fn).2.1.depth = dep := by
  cases fn with
  | dir st sub =>
      cases sub with
      | none => exact ⟨rfl, rfl, rfl⟩
      | some es =>
          have h := scanEntries_meta p dep es (scanStart p par dep c) (c + 1)
          exact ⟨h.1, h.2.1, h.2.2.1⟩
  | file st => exact ⟨rfl, rfl, rfl⟩
  | symlink st => exact ⟨rfl, rfl, rfl⟩
  | special st => exact ⟨rfl, rfl, rfl⟩

theorem scanF_self_mem (p : String) (par : Option String) (dep : Nat)
    (c : Int) (fn : FNode) :
    (scanF p par dep c fn).2.1 ∈ (scanF p par dep c fn).1 := by
  cases fn with
  | dir st sub =>
      cases sub with
      | none => exact List.mem_singleton.mpr rfl
      | some es =>
          simp only [scanF, scanFinish]
          exact List.mem_append_right _ (List.mem_singleton.mpr rfl)
  | file st => exact List.mem_singleton.mpr rfl
  | symlink st => exact List.mem_singleton.mpr rfl
  | special st => exact List.mem_singleton.mpr rfl

mutual

/-- Where every record a scan emits sits in the tree: it is either the
root node itself (with the scan's aggregate) or its parent attribute
points strictly inside the scanned subtree. -/
theorem scanF_children_mem (p : String) (par : Option String) (dep : Nat)
    (c : Int) (fn : FNode) :
    ∀ x ∈ (scanF p par dep c fn).1,
      (x.path = p ∧ x.parent = par ∧ aggOf x = scanAggF fn)
      ∨ (∃ b, x.parent = some b ∧ pathUnder p b) := by
  cases fn with
  | dir st sub =>
      cases sub with
      | none =>
          intro x hx
          rcases List.mem_singleton.mp hx with rfl
          exact Or.inl ⟨rfl, rfl, rfl⟩
      | some es =>
          intro x hx
          simp only [scanF, scanFinish] at hx
          rcases List.mem_append.mp hx with hx | hx
          · rcases scanEntries_children_mem p dep es
              (scanStart p par dep c) (c + 1) x hx with
              ⟨n, st', sub', _, _, hpar, _⟩ | ⟨b, hpar, n, fn', _, hu⟩
            · exact Or.inr ⟨p, hpar, Or.inl rfl⟩
            · exact Or.inr ⟨b, hpar, Or.inr (pathUnder_extend hu)⟩
          · rcases List.mem_singleton.mp hx with rfl
            refine Or.inl ⟨?_, ?_, ?_⟩
            · exact (scanEntries_meta p dep es (scanStart p par dep c)
                (c + 1)).1
            · exact (scanEntries_meta p dep es (scanStart p par dep c)
                (c + 1)).2.1
            · show aggOf (scanEntries p dep es (scanStart p par dep c)
                  (c + 1)).2.1 = scanAggF (FNode.dir st (some es))
              rw [scanEntries_agg, aggOf_scanStart]
              rfl
  | file st =>
      intro x hx
      rcases List.mem_singleton.mp hx with rfl
      exact Or.inl ⟨rfl, rfl, rfl⟩
  | symlink st =>
      intro x hx
      rcases List.mem_singleton.mp hx with rfl
      exact Or.inl ⟨rfl, rfl, rfl⟩
  | special st =>
      intro x hx
      rcases List.mem_singleton.mp hx with rfl
      exact Or.inl ⟨rfl, rfl, rfl⟩

theorem scanEntries_children_mem (base : String) (depth : Nat)
    (es : List (String × FNode)) (d : Directory) (c : Int) :
    ∀ x ∈ (scanEntries base depth es d c).1,
      (∃ n st sub, (n, FNode.dir st sub) ∈ es
        ∧ x.path = base ++ "/" ++ n ∧ x.parent = some base
        ∧ aggOf x = scanAgg sub)
      ∨ (∃ b, x.parent = some b ∧ ∃ n fn', (n, fn') ∈ es
          ∧ pathUnder (base ++ "/" ++ n) b) := by
  match es with
  | [] => intro x hx; cases hx
  | (n, fn) :: rest =>
      cases fn with
      | dir st sub =>
          intro x hx
          simp only [scanEntries] at hx
          rcases List.mem_append.mp hx with hx | hx
          · rcases scanF_children_mem (base ++ "/" ++ n) (some base)
              (depth + 1) c (FNode.dir st sub) x hx with
              ⟨hp, hpar, hagg⟩ | ⟨b, hpar, hu⟩
            · refine Or.inl ⟨n, st, sub, List.mem_cons_self _ _, hp, hpar,
                ?_⟩
              rw [hagg, scanAggF_dir]
            · exact Or.inr ⟨b, hpar, n, FNode.dir st sub,
                List.mem_cons_self _ _, hu⟩
          · rcases scanEntries_children_mem base depth rest
              (addChildDirectory (addDirEntry d (FNode.dir st sub))
                (scanF (base ++ "/" ++ n) (some base) (depth + 1) c
                  (FNode.dir st sub)).2.1)
              (scanF (base ++ "/" ++ n) (some base) (depth + 1) c
                (FNode.dir st sub)).2.2 x hx with
              ⟨m, st', sub', hm, hrest⟩ | ⟨b, hpar, m, fm, hm, hu⟩
            · exact Or.inl ⟨m, st', sub', List.mem_cons_of_mem _ hm, hrest⟩
            · exact Or.inr ⟨b, hpar, m, fm, List.mem_cons_of_mem _ hm, hu⟩
      | file st =>
          intro x hx
          rcases scanEntries_children_mem base depth rest
            (addDirEntry d (FNode.file st)) c x hx with
            ⟨m, st', sub', hm, hrest⟩ | ⟨b, hpar, m, fm, hm, hu⟩
          · exact Or.inl ⟨m, st', sub', List.mem_cons_of_mem _ hm, hrest⟩
          · exact Or.inr ⟨b, hpar, m, fm, List.mem_cons_of_mem _ hm, hu⟩
      | symlink st =>
          intro x hx
          rcases scanEntries_children_mem base depth rest
            (addDirEntry d (FNode.symlink st)) c x hx with
            ⟨m, st', sub', hm, hrest⟩ | ⟨b, hpar, m, fm, hm, hu⟩
          · exact Or.inl ⟨m, st', sub', List.mem_cons_of_mem _ hm, hrest⟩
          · exact Or.inr ⟨b, hpar, m, fm, List.mem_cons_of_mem _ hm, hu⟩
      | special st =>
          intro x hx
          rcases scanEntries_children_mem base depth rest
            (addDirEntry d (FNode.special st)) c x hx with
            ⟨m, st', sub', hm, hrest⟩ | ⟨b, hpar, m, fm, hm, hu⟩
          · exact Or.inl ⟨m, st', sub', List.mem_cons_of_mem _ hm, hrest⟩
          · exact Or.inr ⟨b, hpar, m, fm, List.mem_cons_of_mem _ hm, hu⟩
end

/-- Every live immediate child directory has a corresponding record
among the scan loop's emissions: at the child's path, with the scanned
node's parent attribute and the child subtree's scan aggregate. -/
theorem scanEntries_children_exists (base : String) (depth : Nat)
    (es : List (String × FNode)) :
    ∀ (d : Directory) (c : Int) (n : String) (st : Stat)
      (sub : Option (List (String × FNode))),
    (n, FNode.dir st sub) ∈ es →
    ∃ x ∈ (scanEntries base depth es d c).1,
      x.path = base ++ "/" ++ n ∧ x.parent = some base
      ∧ aggOf x = scanAgg sub := by
  induction es with
  | nil => intro d c n st sub h; cases h
  | cons e rest ih =>
      intro d c n st sub h
      obtain ⟨m, fm⟩ := e
      rcases List.mem_cons.mp h with hh | hh
      · injection hh with h1 h2
        subst h1 h2
        refine ⟨(scanF (base ++ "/" ++ n) (some base) (depth + 1) c
            (FNode.dir st sub)).2.1, ?_, ?_, ?_, ?_⟩
        · simp only [scanEntries]
          exact List.mem_append_left _
            (scanF_self_mem (base ++ "/" ++ n) (some base) (depth + 1) c
              (FNode.dir st sub))
        · exact (scanF_node_meta (base ++ "/" ++ n) (some base) (depth + 1)
            c (FNode.dir st sub)).1
        · exact (scanF_node_meta (base ++ "/" ++ n) (some base) (depth + 1)
            c (FNode.dir st sub)).2.1
        · rw [scanF_agg, scanAggF_dir]
      · cases fm with
        | dir st' sub' =>
            rcases ih (addChildDirectory (addDirEntry d (FNode.dir st' sub'))
                (scanF (base ++ "/" ++ m) (some base) (depth + 1) c
                  (FNode.dir st' sub')).2.1)
              (scanF (base ++ "/" ++ m) (some base) (depth + 1) c
                (FNode.dir st' sub')).2.2 n st sub hh with ⟨x, hx, hfacts⟩
            refine ⟨x, ?_, hfacts⟩
            simp only [scanEntries]
            exact List.mem_append_right _ hx
        | file st' =>
            exact ih (addDirEntry d (FNode.file st')) c n st sub hh
        | symlink st' =>
            exact ih (addDirEntry d (FNode.symlink st')) c n st sub hh
        | special st' =>
            exact ih (addDirEntry d (FNode.special st')) c n st sub hh

/-- When the stored-children index holds, for every live child
directory, a record at the child's path carrying that subtree's scan
aggregate — and nothing else — the aggregates `local_hybrid_refresh`
folds in for the children coincide with the ones a fresh scan would
compute. -/
theorem refreshChildAggs_allFound (base : String)
    (es : List (String × FNode)) :
    plainList es = true →
    ∀ (index : List Directory),
    (index.map Directory.path).Nodup →
    (∀ c ∈ index, ∃ n st sub, (n, FNode.dir st sub) ∈ es
        ∧ c.path = base ++ "/" ++ n ∧ aggOf c = scanAgg sub) →
    (∀ n st sub, (n, FNode.dir st sub) ∈ es →
        index.any (fun c => c.path == base ++ "/" ++ n) = true) →
    refreshChildAggs base es index = liveChildScanAggs (some es) := by
  induction es with
  | nil => intro _ index _ _ _; rfl
  | cons e rest ih =>
      intro hpl index hnd hi hii
      obtain ⟨n, fn⟩ := e
      simp only [plainList, Bool.and_eq_true, Bool.not_eq_true'] at hpl
      obtain ⟨⟨⟨hn, hfn⟩, hnodup⟩, hrest⟩ := hpl
      cases fn with
      | dir st sub =>
          have hany := hii n st sub (List.mem_cons_self _ _)
          rcases popPath_fst_of_any hany with ⟨c, hc1, hc2, hc3⟩
          rcases hp : popPath index (base ++ "/" ++ n) with ⟨c?, index'⟩
          rw [hp] at hc1
          simp only at hc1
          subst hc1
          rcases hi c hc3 with ⟨n', st', sub', hmem', hpath', hagg'⟩
          have hnn' : n' = n :=
            strAppendCancel (hpath'.symm.trans hc2)
          rw [hnn'] at hmem'
          have hsub : sub' = sub := by
            rcases List.mem_cons.mp hmem' with hh | hh
            · cases hh
              rfl
            · exfalso
              have := List.any_eq_false.mp hnodup (n, FNode.dir st' sub') hh
              simp at this
          rw [hsub] at hagg'
          have hsnd : (popPath index (base ++ "/" ++ n)).2 = index' := by
            rw [hp]
          have hnd' : (index'.map Directory.path).Nodup :=
            hnd.sublist ((hsnd ▸ popPath_snd_sublist index
              (base ++ "/" ++ n)).map Directory.path)
          have hi' : ∀ c' ∈ index', ∃ m stm subm,
              (m, FNode.dir stm subm) ∈ rest
              ∧ c'.path = base ++ "/" ++ m ∧ aggOf c' = scanAgg subm := by
            intro c' hc'
            have hc'mem : c' ∈ index :=
              (hsnd ▸ popPath_snd_sublist index (base ++ "/" ++ n)).subset
                hc'
            rcases hi c' hc'mem with ⟨m, stm, subm, hmm, hpm, ham⟩
            have hne : c'.path ≠ base ++ "/" ++ n :=
              popPath_snd_no_p hnd c' (hsnd ▸ hc')
            rcases List.mem_cons.mp hmm with hh | hh
            · exfalso
              injection hh with h1 h2
              subst h1
              exact hne hpm
            · exact ⟨m, stm, subm, hh, hpm, ham⟩
          have hii' : ∀ m stm subm, (m, FNode.dir stm subm) ∈ rest →
              index'.any (fun c' => c'.path == base ++ "/" ++ m) = true := by
            intro m stm subm hm
            have hmn : m ≠ n := by
              intro hh
              subst hh
              have := List.any_eq_false.mp hnodup (m, FNode.dir stm subm) hm
              simp at this
            have := popPath_any_of_ne
              (hii m stm subm (List.mem_cons_of_mem _ hm))
              (fun hh => hmn (strAppendCancel hh))
            rw [hsnd] at this
            exact this
          simp only [refreshChildAggs, hp, liveChildScanAggs,
            List.filterMap_cons]
          rw [hagg', ih hrest index' hnd' hi' hii']
          rfl
      | file st =>
          have hskip : ∀ c ∈ index, ∃ m stm subm,
              (m, FNode.dir stm subm) ∈ rest
              ∧ c.path = base ++ "/" ++ m ∧ aggOf c = scanAgg subm := by
            intro c hc
            rcases hi c hc with ⟨m, stm, subm, hmm, hpm, ham⟩
            rcases List.mem_cons.mp hmm with hh | hh
            · exfalso
              injection hh with h1 h2
              cases h2
            · exact ⟨m, stm, subm, hh, hpm, ham⟩
          exact ih hrest index hnd hskip
            (fun m stm subm hm => hii m stm subm (List.mem_cons_of_mem _ hm))
      | symlink st =>
          have hskip : ∀ c ∈ index, ∃ m stm subm,
              (m, FNode.dir stm subm) ∈ rest
              ∧ c.path = base ++ "/" ++ m ∧ aggOf c = scanAgg subm := by
            intro c hc
            rcases hi c hc with ⟨m, stm, subm, hmm, hpm, ham⟩
            rcases List.mem_cons.mp hmm with hh | hh
            · exfalso
              injection hh with h1 h2
              cases h2
            · exact ⟨m, stm, subm, hh, hpm, ham⟩
          exact ih hrest index hnd hskip
            (fun m stm subm hm => hii m stm subm (List.mem_cons_of_mem _ hm))
      | special st =>
          have hskip : ∀ c ∈ index, ∃ m stm subm,
              (m, FNode.dir stm subm) ∈ rest
              ∧ c.path = base ++ "/" ++ m ∧ aggOf c = scanAgg subm := by
            intro c hc
            rcases hi c hc with ⟨m, stm, subm, hmm, hpm, ham⟩
            rcases List.mem_cons.mp hmm with hh | hh
            · exfalso
              injection hh with h1 h2
              cases h2
            · exact ⟨m, stm, subm, hh, hpm, ham⟩
          exact ih hrest index hnd hskip
            (fun m stm subm hm => hii m stm subm (List.mem_cons_of_mem _ hm))

/-- Transfer of membership along a `viewOf`-equal pair of stores. -/
theorem mem_of_map_viewOf {S1 S2 : Store}
    (h : S1.map viewOf = S2.map viewOf) {z : Directory} (hz : z ∈ S1) :
    ∃ e ∈ S2, viewOf z = viewOf e := by
  have : viewOf z ∈ S2.map viewOf := by
    rw [← h]
    exact List.mem_map_of_mem viewOf hz
  rcases List.mem_map.mp this with ⟨e, he, hee⟩
  exact ⟨e, he, hee.symm⟩

/-- The ancestor walk stops right after refreshing a node whose parent
attribute is `None`. -/
theorem hybridGo_stop (fs : String → Option (List (String × FNode)))
    (S : Store) (d : Directory) (clock : Int) (fuel : Nat)
    (h : d.parent = none) :
    hybridGo fs S d clock (fuel + 1) = localRefresh S d (fs d.path) clock := by
  simp only [hybridGo]
  rw [show fetchParent (localRefresh S d (fs d.path) clock).1
      (localRefresh S d (fs d.path) clock).2.1 = none from by
    unfold fetchParent
    rw [(localRefresh_meta S d (fs d.path) clock).2.1, h]]

/-- C6 core: a second local reconciliation of the root, over a store
whose records coincide (up to bookkeeping timestamps) with a full
scan's emissions, finds every live child already indexed with its scan
aggregate, touches no other record, and re-derives the same aggregate
for the root. -/
theorem secondLocalRefresh_stable (top : String)
    (htop : plainStr top = true)
    (es : List (String × FNode)) (hes : plainList es = true)
    (c0 : Int) (S₁ : Store)
    (hview : S₁.map viewOf
      = ((scan top none (pathDepth top) c0 (some es)).1).map viewOf)
    (z : Directory) (hz : Store.get S₁ top = some z)
    (clock₂ : Int) :
    z.parent = none
    ∧ ∀ q, Option.map aggOf
        (Store.get (localRefresh S₁ z (some es) clock₂).1 q)
      = Option.map aggOf (Store.get S₁ q) := by
  have hzp : z.path = top := (Store.get_some hz).1
  have hzmem : z ∈ S₁ := (Store.get_some hz).2
  have hwfes : wfList es = true := plainList_wf es hes
  set E := scanEntries top (pathDepth top) es
    (scanStart top none (pathDepth top) c0) (c0 + 1) with hE
  have hscan : (scan top none (pathDepth top) c0 (some es)).1
      = E.1 ++ [(scan top none (pathDepth top) c0 (some es)).2.1] := rfl
  have hroot_parent :
      (scan top none (pathDepth top) c0 (some es)).2.1.parent = none := by
    rw [scan_eq_scanF statA]
    exact (scanF_node_meta top none (pathDepth top) c0
      (FNode.dir statA (some es))).2.1
  have hroot_agg : aggOf (scan top none (pathDepth top) c0 (some es)).2.1
      = scanAgg (some es) :=
    scan_agg top none (pathDepth top) c0 (some es)
  have hEmem := (scanEntries_post top (pathDepth top) es
    (scanStart top none (pathDepth top) c0) (c0 + 1) hwfes).1
  obtain ⟨e, he, hve⟩ := mem_of_map_viewOf hview hzmem
  have he' : e ∈ E.1
      ++ [(scan top none (pathDepth top) c0 (some es)).2.1] := by
    rw [← hscan]
    exact he
  have hzpar : z.parent = none := by
    rcases List.mem_append.mp he' with hx | hx
    · exfalso
      rcases hEmem e hx with ⟨n, fn', _, _, hu⟩
      exact pathUnder_ne_base hu ((viewOf_path hve).symm.trans hzp)
    · rcases List.mem_singleton.mp hx with rfl
      have h := congrArg (fun v => v.2.1) hve
      simp only [viewOf] at h
      rw [h, hroot_parent]
  have hzagg : aggOf z = scanAgg (some es) := by
    rcases List.mem_append.mp he' with hx | hx
    · exfalso
      rcases hEmem e hx with ⟨n, fn', _, _, hu⟩
      exact pathUnder_ne_base hu ((viewOf_path hve).symm.trans hzp)
    · rcases List.mem_singleton.mp hx with rfl
      rw [viewOf_agg hve, hroot_agg]
  have hS1paths : S₁.map Directory.path
      = ((scan top none (pathDepth top) c0 (some es)).1).map
          Directory.path := by
    rw [← map_viewOf_path, ← map_viewOf_path, hview]
  have hnodupS1 : (S₁.map Directory.path).Nodup := by
    rw [hS1paths]
    have hpw : ((scan top none (pathDepth top) c0 (some es)).1).Pairwise
        (fun a b => a.path ≠ b.path) := by
      rw [scan_eq_scanF statA]
      exact scanF_nodupPaths top none (pathDepth top) c0
        (FNode.dir statA (some es)) hwfes
    exact List.pairwise_map.mpr hpw
  have hndI : ((storedChildren S₁ top).map Directory.path).Nodup :=
    storedChildren_nodup top hnodupS1
  have hi : ∀ c ∈ storedChildren S₁ top, ∃ n st sub,
      (n, FNode.dir st sub) ∈ es ∧ c.path = top ++ "/" ++ n
      ∧ aggOf c = scanAgg sub := by
    intro c hc
    have hcm := mem_storedChildren.mp hc
    obtain ⟨e2, he2, hve2⟩ := mem_of_map_viewOf hview hcm.1
    have he2' : e2 ∈ E.1
        ++ [(scan top none (pathDepth top) c0 (some es)).2.1] := by
      rw [← hscan]
      exact he2
    have he2par : e2.parent = some top := by
      have h := congrArg (fun v => v.2.1) hve2
      simp only [viewOf] at h
      rw [← h, hcm.2]
    rcases List.mem_append.mp he2' with hx | hx
    · rcases scanEntries_children_mem top (pathDepth top) es
        (scanStart top none (pathDepth top) c0) (c0 + 1) e2
        (by rw [hE] at hx; exact hx) with
        ⟨n, st, sub, hmem, hp2, _, hagg2⟩ | ⟨b, hpar2, n, fn', _, hu⟩
      · exact ⟨n, st, sub, hmem, (viewOf_path hve2).trans hp2,
          (viewOf_agg hve2).trans hagg2⟩
      · exfalso
        rw [he2par] at hpar2
        injection hpar2 with hb
        exact pathUnder_ne_base hu hb.symm
    · exfalso
      rcases List.mem_singleton.mp hx with rfl
      rw [hroot_parent] at he2par
      cases he2par
  have hii : ∀ n st sub, (n, FNode.dir st sub) ∈ es →
      (storedChildren S₁ top).any
        (fun c => c.path == top ++ "/" ++ n) = true := by
    intro n st sub hmem
    rcases scanEntries_children_exists top (pathDepth top) es
      (scanStart top none (pathDepth top) c0) (c0 + 1) n st sub hmem with
      ⟨x, hx, hxp, hxpar, _⟩
    have hxfull : x ∈ (scan top none (pathDepth top) c0 (some es)).1 := by
      rw [hscan]
      refine List.mem_append_left _ ?_
      rw [hE]
      exact hx
    obtain ⟨c, hcS, hvc⟩ := mem_of_map_viewOf hview.symm hxfull
    have hcpar : c.parent = some top := by
      have h := congrArg (fun v => v.2.1) hvc
      simp only [viewOf] at h
      rw [← h, hxpar]
    rw [List.any_eq_true]
    exact ⟨c, mem_storedChildren.mpr ⟨hcS, hcpar⟩,
      by simp [(viewOf_path hvc).symm.trans hxp]⟩
  have hpres : ∀ e2 ∈ es, FNode.isDir e2.2 = true →
      (storedChildren S₁ top).any
        (fun c => c.path == top ++ "/" ++ e2.1) = true := by
    intro e2 hel hdir
    obtain ⟨nm, fn⟩ := e2
    cases fn with
    | dir st sub => exact hii nm st sub hel
    | file st => cases hdir
    | symlink st => cases hdir
    | special st => cases hdir
  have hN := refreshEntries_noNew top z.depth es z.clear
    (storedChildren S₁ top) S₁ clock₂ hes hndI hpres
  have hleft : (refreshEntries top z.depth es z.clear
      (storedChildren S₁ top) S₁ clock₂).2.2.1 = [] := by
    rw [List.eq_nil_iff_forall_not_mem]
    intro y hy
    have hyI : y ∈ storedChildren S₁ top := hN.2.1 y hy
    rcases hi y hyI with ⟨n, st, sub, hmem, hyp, _⟩
    exact hN.2.2.2 y hyI (n, FNode.dir st sub) hmem rfl hyp hy
  have haggnode : aggOf (refreshEntries top z.depth es z.clear
      (storedChildren S₁ top) S₁ clock₂).2.1 = scanAgg (some es) := by
    rw [refreshEntries_agg, aggOf_clear,
      refreshChildAggs_allFound top es hes (storedChildren S₁ top)
        hndI hi hii]
    exact (scanAggEntries_decompose es Agg.base).symm
  have hnodepath : (refreshEntries top z.depth es z.clear
      (storedChildren S₁ top) S₁ clock₂).2.1.path = top := by
    rw [(refreshEntries_meta top z.depth es z.clear
      (storedChildren S₁ top) S₁ clock₂).1]
    exact hzp
  refine ⟨hzpar, ?_⟩
  intro q
  simp only [localRefresh]
  rw [hzp, hN.1, hleft]
  simp only [List.map_nil, sortStrings, deleteMissing]
  rw [Store.get_upsert]
  by_cases hq : top = q
  · rw [if_pos (by
      show (refreshEntries top z.depth es z.clear
        (storedChildren S₁ top) S₁ clock₂).2.1.path = q
      rw [hnodepath, hq])]
    rw [← hq, hz]
    show some (aggOf { (refreshEntries top z.depth es z.clear
        (storedChildren S₁ top) S₁ clock₂).2.1 with
      last_updated := (refreshEntries top z.depth es z.clear
        (storedChildren S₁ top) S₁ clock₂).2.2.2 }) = some (aggOf z)
    rw [aggOf_setLastUpdated, haggnode, hzagg]
  · rw [if_neg (by
      show ¬ (refreshEntries top z.depth es z.clear
        (storedChildren S₁ top) S₁ clock₂).2.1.path = q
      rw [hnodepath]
      exact hq)]

/-- C6 core, unreadable root: a second local reconciliation over the
single exception record a failed scan leaves behind reproduces the same
aggregate (one exception, nothing else). -/
theorem secondLocalRefreshNone_stable (top : String) (c0 : Int)
    (S₁ : Store)
    (hview : S₁.map viewOf
      = ((scan top none (pathDepth top) c0 none).1).map viewOf)
    (z : Directory) (hz : Store.get S₁ top = some z) (clock₂ : Int) :
    z.parent = none
    ∧ ∀ q, Option.map aggOf
        (Store.get (localRefresh S₁ z none clock₂).1 q)
      = Option.map aggOf (Store.get S₁ q) := by
  have hzp : z.path = top := (Store.get_some hz).1
  have hzmem : z ∈ S₁ := (Store.get_some hz).2
  obtain ⟨e, he, hve⟩ := mem_of_map_viewOf hview hzmem
  rcases List.mem_singleton.mp he with rfl
  have hzpar : z.parent = none := by
    have h := congrArg (fun v => v.2.1) hve
    simp only [viewOf] at h
    exact h
  have hzagg : aggOf z = scanAgg none := by
    rw [viewOf_agg hve]
    exact scan_agg top none (pathDepth top) c0 none
  have hindex : storedChildren S₁ z.path = [] := by
    rw [List.eq_nil_iff_forall_not_mem]
    intro c hc
    have hcm := mem_storedChildren.mp hc
    obtain ⟨e2, he2, hve2⟩ := mem_of_map_viewOf hview hcm.1
    rcases List.mem_singleton.mp he2 with rfl
    have h := congrArg (fun v => v.2.1) hve2
    simp only [viewOf] at h
    rw [hcm.2] at h
    cases h
  refine ⟨hzpar, ?_⟩
  intro q
  simp only [localRefresh]
  rw [hindex]
  simp only [List.map_nil, sortStrings, deleteMissing]
  rw [Store.get_upsert]
  split
  next hcond =>
    have hq : top = q := by
      rw [← hzp]
      exact hcond
    subst hq
    rw [hz]
    show some (aggOf _) = some (aggOf z)
    rw [hzagg]
    rfl
  next hcond => rfl

def AC6 : Directory := Directory.init "/a" none (some 1)

def BC6 : Directory := Directory.init "/a/b" (some "/a") (some 2)

/-- The C6 counterexample filesystem: `/a` exists and is empty (its
subdirectory `b` is gone); scandir on `/a/b` raises. -/
def fsC6 : String → Option (List (String × FNode)) :=
  fun p => if p = "/a" then some [] else none

/-- Claim C6, counterexample.  The store tracks `/a` and its
subdirectory `/a/b`; on the filesystem `/a/b` has been removed, and
nothing changes between the two calls.  The first
`hybrid_refresh("/a/b")` refreshes the stale record, walks up to `/a`,
and there deletes `/a/b` as missing — leaving no record for it.  The
second `hybrid_refresh("/a/b")` finds no record, so it builds a fresh
`Directory("/a/b")` whose parent attribute is `None`, records one
scandir exception for it, persists it, and — with no parent to walk
to — never reconciles `/a`.  The two consecutive runs differ at
`/a/b`: no record versus a fresh exception record. -/
theorem claim_C6_counterexample :
    Store.get (hybridRefresh fsC6 [AC6, BC6] "/a/b" 100 2).1 "/a/b" = none
    ∧ (Store.get (hybridRefresh fsC6
        (hybridRefresh fsC6 [AC6, BC6] "/a/b" 100 2).1 "/a/b"
        (hybridRefresh fsC6 [AC6, BC6] "/a/b" 100 2).2.2 2).1
        "/a/b").isSome = true := by
  decide

/-- Claim C6, amended.  For a store produced by refreshing a root from
no prior state (and a tree with wildcard-free legal names), running
`hybrid_refresh` on that root again — at any later clock — leaves the
aggregate fields (three max times, eight counters) of every record
unchanged: the second run finds every live child already indexed with
its persisted scan aggregate, re-derives the same totals for the root,
and touches nothing else.  (Only bookkeeping timestamps such as
`last_updated` change.)  Without the tracked-root restriction the
claim fails: refreshing a path whose directory no longer exists is not
idempotent, as the counterexample shows. -/
theorem claim_C6_second_refresh_preserves_aggregates
    (top : String) (htop : plainStr top = true)
    (fs : String → Option (List (String × FNode)))
    (hplain : plainCont (fs top) = true)
    (clock clock₂ : Int) (fuel fuel₂ : Nat) (q : String) :
    Option.map aggOf (Store.get
        (hybridRefresh fs (hybridRefresh fs [] top clock (fuel + 1)).1 top
          clock₂ (fuel₂ + 1)).1 q)
      = Option.map aggOf (Store.get
          (hybridRefresh fs [] top clock (fuel + 1)).1 q) := by
  rw [hybridRefresh_empty]
  have hview := refreshEmpty_store_view top htop (fs top) hplain clock 0
  generalize hS : (localRefresh [] (Directory.init top none none)
    (fs top) clock).1 = S₁
  rw [hS] at hview
  have hex : ∃ z, Store.get S₁ top = some z := by
    cases hget : Store.get S₁ top with
    | some z => exact ⟨z, rfl⟩
    | none =>
        exfalso
        have hget' : S₁.find? (fun d => d.path == top) = none := hget
        have hnone := List.find?_eq_none.mp hget'
        have hrootmem : (scan top none (pathDepth top) 0 (fs top)).2.1
            ∈ (scan top none (pathDepth top) 0 (fs top)).1 := by
          rw [scan_eq_scanF statA]
          exact scanF_self_mem top none (pathDepth top) 0
            (FNode.dir statA (fs top))
        have hrootpath :
            (scan top none (pathDepth top) 0 (fs top)).2.1.path = top := by
          rw [scan_eq_scanF statA]
          exact (scanF_node_meta top none (pathDepth top) 0
            (FNode.dir statA (fs top))).1
        obtain ⟨c, hcS, hvc⟩ := mem_of_map_viewOf hview.symm hrootmem
        exact hnone c hcS
          (by simp [(viewOf_path hvc).symm.trans hrootpath])
  obtain ⟨z, hz⟩ := hex
  cases hfs : fs top with
  | none =>
      rw [hfs] at hview
      have hcore := secondLocalRefreshNone_stable top 0 S₁ hview z hz clock₂
      have hred : hybridRefresh fs S₁ top clock₂ (fuel₂ + 1)
          = localRefresh S₁ z (fs z.path) clock₂ := by
        show hybridGo fs S₁ ((Store.get S₁ top).getD
          (Directory.init top none none)) clock₂ (fuel₂ + 1) = _
        rw [hz]
        exact hybridGo_stop fs S₁ z clock₂ fuel₂ hcore.1
      rw [hred, (Store.get_some hz).1, hfs]
      exact hcore.2 q
  | some es =>
      rw [hfs] at hview
      have hes : plainList es = true := by
        rw [hfs] at hplain
        exact hplain
      have hcore := secondLocalRefresh_stable top htop es hes 0 S₁ hview
        z hz clock₂
      have hred : hybridRefresh fs S₁ top clock₂ (fuel₂ + 1)
          = localRefresh S₁ z (fs z.path) clock₂ := by
        show hybridGo fs S₁ ((Store.get S₁ top).getD
          (Directory.init top none none)) clock₂ (fuel₂ + 1) = _
        rw [hz]
        exact hybridGo_stop fs S₁ z clock₂ fuel₂ hcore.1
      rw [hred, (Store.get_some hz).1, hfs]
      exact hcore.2 q

/-- Witness for the amended C6 theorem at a concrete input. -/
theorem claim_C6_second_refresh_witness :
    Option.map aggOf (Store.get
        (hybridRefresh fsC1W (hybridRefresh fsC1W [] "/r" 100 (0 + 1)).1
          "/r" 300 (0 + 1)).1 "/r/a")
      = Option.map aggOf (Store.get
          (hybridRefresh fsC1W [] "/r" 100 (0 + 1)).1 "/r/a") :=
  claim_C6_second_refresh_preserves_aggregates "/r" (by decide) fsC1W
    (by decide) 100 300 0 0 "/r/a"

/-- Witness for the amended C3 theorem at a concrete input. -/
theorem claim_C3_per_commit_atomicity_witness :
    (∃ k, localRefreshT (fun _ => none) 1000 ⟨[PC3, SC3, TC3], []⟩ PC3
        (some []) 100 0
        = .ok (⟨(localRefresh [PC3, SC3, TC3] PC3 (some []) 100).1, []⟩,
            (localRefresh [PC3, SC3, TC3] PC3 (some []) 100).2.1,
            (localRefresh [PC3, SC3, TC3] PC3 (some []) 100).2.2, k))
    ∧ (∀ fault msg s',
        localRefreshT fault 1000 ⟨[PC3, SC3, TC3], []⟩ PC3 (some []) 100 0
            = .error (msg, s') →
        ∃ k, fault k = some msg) :=
  claim_C3_per_commit_atomicity 1000 (by decide) [PC3, SC3, TC3] PC3
    (some []) 100 0

end Relascope
